import Mathlib

/-!
Verification of the entity-reference caching engine (`cacheref`).

This file gives a shallow embedding of the parts of the source that the
checked claims are about:

* `cacheref/cache.py`: argument normalization (`_normalize_params`,
  `_normalize_value`), key construction (`construct_key`, `_generate_key`,
  `_keyify_entity_id`), the read/write path of the decorator (`wrapper`,
  `_cache` with its TTL-reconciliation rule), and the invalidation
  operations (`invalidate_entity`, `invalidate_key`).
* `cacheref/idextractor.py`: `extract_entity_ids`,
  `_first_result_from_extractors`, `_parse_item_id`.
* `cacheref/backends/memory.py`: `MemoryBackend` (scalar store, set store,
  expiry table, pipeline) and `cacheref/backends/base.py`: the inherited
  `CacheBackend.ttl`, which raises `NotImplementedError`.

Python values appearing as arguments are embedded as the inductive `PVal`;
Python's partially-defined comparison (which raises `TypeError` on
unsupported pairs) is embedded as `pyCmp : PVal → PVal → Option Ordering`.
Sorting under `sorted(...)` is modelled by an insertion sort over a total
refinement `pyCmpT` of `pyCmp`; on lists whose elements are pairwise
comparable the two orders agree, and the model only ever sorts such lists
(`pySorted` returns `none`, the `TypeError` branch, otherwise).
-/

/-! ### Generic three-way comparison over a linear order -/

/-- Three-way comparison derived from a linear order. -/
def cmpOrd {α : Type} [LinearOrder α] (a b : α) : Ordering :=
  if a < b then .lt else if a = b then .eq else .gt

theorem cmpOrd_lt_iff {α : Type} [LinearOrder α] {a b : α} :
    cmpOrd a b = .lt ↔ a < b := by
  unfold cmpOrd
  split_ifs with h1 h2
  · simp [h1]
  · simp [h1, h2]
  · simp [h1]

theorem cmpOrd_eq_iff {α : Type} [LinearOrder α] {a b : α} :
    cmpOrd a b = .eq ↔ a = b := by
  unfold cmpOrd
  split_ifs with h1 h2
  · simp [ne_of_lt h1]
  · simp [h2]
  · simp [h2]

theorem cmpOrd_gt_iff {α : Type} [LinearOrder α] {a b : α} :
    cmpOrd a b = .gt ↔ b < a := by
  unfold cmpOrd
  split_ifs with h1 h2
  · simp [lt_asymm h1]
  · simp [h2, lt_irrefl]
  · simp [lt_of_le_of_ne (le_of_not_lt h1) (Ne.symm h2)]

theorem cmpOrd_swap {α : Type} [LinearOrder α] (a b : α) :
    cmpOrd b a = (cmpOrd a b).swap := by
  rcases hc : cmpOrd a b with _ | _ | _
  · exact cmpOrd_gt_iff.mpr (cmpOrd_lt_iff.mp hc)
  · rw [cmpOrd_eq_iff.mp hc]; exact cmpOrd_eq_iff.mpr rfl
  · exact cmpOrd_lt_iff.mpr (cmpOrd_gt_iff.mp hc)

theorem cmpOrd_lt_trans {α : Type} [LinearOrder α] {a b c : α}
    (h1 : cmpOrd a b = .lt) (h2 : cmpOrd b c = .lt) : cmpOrd a c = .lt :=
  cmpOrd_lt_iff.mpr (lt_trans (cmpOrd_lt_iff.mp h1) (cmpOrd_lt_iff.mp h2))

theorem cmpOrd_refl {α : Type} [LinearOrder α] (a : α) : cmpOrd a a = .eq :=
  cmpOrd_eq_iff.mpr rfl

/-! ### String comparison by code points

Python compares strings lexicographically by Unicode code point; we embed
that ordering directly on the character list of a `String` (the library's
built-in `String` order is not kernel-reducible, so we spell out the same
lexicographic comparison). -/

/-- Three-way comparison of characters by code point. -/
def charCmp (a b : Char) : Ordering := cmpOrd a.toNat b.toNat

theorem charCmp_eq_iff {a b : Char} : charCmp a b = .eq ↔ a = b := by
  unfold charCmp
  rw [cmpOrd_eq_iff]
  constructor
  · intro h
    apply Char.eq_of_val_eq
    exact UInt32.toNat.inj h
  · intro h; rw [h]

theorem charCmp_swap (a b : Char) : charCmp b a = (charCmp a b).swap :=
  cmpOrd_swap _ _

theorem charCmp_lt_trans {a b c : Char} (h1 : charCmp a b = .lt)
    (h2 : charCmp b c = .lt) : charCmp a c = .lt :=
  cmpOrd_lt_trans h1 h2

/-- Lexicographic three-way comparison of character lists. -/
def charsCmp : List Char → List Char → Ordering
  | [], [] => .eq
  | [], _ :: _ => .lt
  | _ :: _, [] => .gt
  | a :: as, b :: bs =>
    match charCmp a b with
    | .eq => charsCmp as bs
    | o => o

theorem charsCmp_eq_iff : ∀ {as bs : List Char}, charsCmp as bs = .eq ↔ as = bs
  | [], [] => by simp [charsCmp]
  | [], _ :: _ => by simp [charsCmp]
  | _ :: _, [] => by simp [charsCmp]
  | a :: as, b :: bs => by
    rw [charsCmp]
    rcases hc : charCmp a b with _ | _ | _
    · simp only []
      constructor
      · intro h; exact absurd h (by simp)
      · intro h
        have : a = b := by injection h
        rw [this, charCmp_eq_iff.mpr rfl] at hc
        exact absurd hc (by simp)
    · rw [charCmp_eq_iff.mp hc]
      rw [charsCmp_eq_iff]
      constructor
      · intro h; rw [h]
      · intro h; injection h
    · simp only []
      constructor
      · intro h; exact absurd h (by simp)
      · intro h
        have : a = b := by injection h
        rw [this, charCmp_eq_iff.mpr rfl] at hc
        exact absurd hc (by simp)

theorem charsCmp_swap : ∀ (as bs : List Char), charsCmp bs as = (charsCmp as bs).swap
  | [], [] => rfl
  | [], _ :: _ => rfl
  | _ :: _, [] => rfl
  | a :: as, b :: bs => by
    rw [charsCmp, charsCmp, charCmp_swap a b]
    rcases charCmp a b with _ | _ | _
    · rfl
    · exact charsCmp_swap as bs
    · rfl

theorem charsCmp_lt_trans : ∀ {as bs cs : List Char},
    charsCmp as bs = .lt → charsCmp bs cs = .lt → charsCmp as cs = .lt
  | [], [], _ :: _, h1, _ => by simp [charsCmp] at h1
  | [], _ :: _, _ :: _, _, _ => by simp [charsCmp]
  | [], _ :: _, [], _, h2 => by simp [charsCmp] at h2
  | [], [], [], h1, _ => by simp [charsCmp] at h1
  | _ :: _, [], _, h1, _ => by
    rw [charsCmp] at h1
    exact absurd h1 (by simp)
  | _ :: _, _ :: _, [], _, h2 => by
    rw [charsCmp] at h2
    exact absurd h2 (by simp)
  | a :: as, b :: bs, c :: cs, h1, h2 => by
    rw [charsCmp] at h1 h2 ⊢
    rcases hab : charCmp a b with _ | _ | _ <;> rw [hab] at h1
    · rcases hbc : charCmp b c with _ | _ | _ <;> rw [hbc] at h2
      · rw [charCmp_lt_trans hab hbc]
      · rw [← charCmp_eq_iff.mp hbc, hab]
      · exact absurd h2 (by simp)
    · rcases hbc : charCmp b c with _ | _ | _ <;> rw [hbc] at h2
      · rw [charCmp_eq_iff.mp hab, hbc]
      · rw [charCmp_eq_iff.mp hab, hbc]
        exact charsCmp_lt_trans h1 h2
      · exact absurd h2 (by simp)
    · exact absurd h1 (by simp)

/-- Three-way comparison of strings by code point (Python string order). -/
def strCmp (a b : String) : Ordering := charsCmp a.data b.data

theorem strCmp_eq_iff {a b : String} : strCmp a b = .eq ↔ a = b := by
  unfold strCmp
  rw [charsCmp_eq_iff]
  constructor
  · exact String.ext
  · intro h; rw [h]

theorem strCmp_swap (a b : String) : strCmp b a = (strCmp a b).swap :=
  charsCmp_swap _ _

theorem strCmp_lt_trans {a b c : String} (h1 : strCmp a b = .lt)
    (h2 : strCmp b c = .lt) : strCmp a c = .lt :=
  charsCmp_lt_trans h1 h2

theorem strCmp_refl (a : String) : strCmp a a = .eq := strCmp_eq_iff.mpr rfl

/-! ### Embedded Python values

`PVal` embeds the argument values handled by `EntityCache._normalize_value`
(cache.py:642-667): ints, strings, lists, tuples, sets and dicts. Sets and
dicts are carried as association lists in insertion order. -/

inductive PVal where
  | int (n : Int)
  | str (s : String)
  | list (xs : List PVal)
  | tup (xs : List PVal)
  | set (xs : List PVal)
  | dict (entries : List (String × PVal))

mutual

/-- Partial comparison exactly as Python attempts it: ints with ints,
strings with strings, lists with lists and tuples with tuples
(lexicographically, short-circuiting); every other pair raises `TypeError`,
embedded as `none`. -/
def pyCmp : PVal → PVal → Option Ordering
  | .int a, .int b => some (cmpOrd a b)
  | .str a, .str b => some (strCmp a b)
  | .list a, .list b => pyCmpList a b
  | .tup a, .tup b => pyCmpList a b
  | _, _ => none

def pyCmpList : List PVal → List PVal → Option Ordering
  | [], [] => some .eq
  | [], _ :: _ => some .lt
  | _ :: _, [] => some .gt
  | a :: as, b :: bs =>
    match pyCmp a b with
    | some .eq => pyCmpList as bs
    | some o => some o
    | none => none

end

/-- Constructor rank, used only to break ties between values Python cannot
compare (such pairs are never compared by the model's `sorted`). -/
def pvRank : PVal → Nat
  | .int _ => 0
  | .str _ => 1
  | .list _ => 2
  | .tup _ => 3
  | .set _ => 4
  | .dict _ => 5

mutual

/-- Total refinement of `pyCmp`: agrees with `pyCmp` whenever `pyCmp` is
defined, and extends it arbitrarily (by constructor rank, and
lexicographically inside sets/dicts) so that sorting is canonical. -/
def pyCmpT : PVal → PVal → Ordering
  | .int a, .int b => cmpOrd a b
  | .str a, .str b => strCmp a b
  | .list a, .list b => pyCmpTList a b
  | .tup a, .tup b => pyCmpTList a b
  | .set a, .set b => pyCmpTList a b
  | .dict a, .dict b => pyCmpTEntries a b
  | a, b => cmpOrd (pvRank a) (pvRank b)

def pyCmpTList : List PVal → List PVal → Ordering
  | [], [] => .eq
  | [], _ :: _ => .lt
  | _ :: _, [] => .gt
  | a :: as, b :: bs =>
    match pyCmpT a b with
    | .eq => pyCmpTList as bs
    | o => o

def pyCmpTEntries : List (String × PVal) → List (String × PVal) → Ordering
  | [], [] => .eq
  | [], _ :: _ => .lt
  | _ :: _, [] => .gt
  | (k1, v1) :: as, (k2, v2) :: bs =>
    match strCmp k1 k2 with
    | .eq =>
      match pyCmpT v1 v2 with
      | .eq => pyCmpTEntries as bs
      | o => o
    | o => o

end

mutual

theorem pyCmpT_eq_of : ∀ {a b : PVal}, pyCmpT a b = .eq → a = b
  | .int _, .int _, h => congrArg PVal.int (cmpOrd_eq_iff.mp h)
  | .str _, .str _, h => congrArg PVal.str (strCmp_eq_iff.mp h)
  | .list _, .list _, h => congrArg PVal.list (pyCmpTList_eq_of h)
  | .tup _, .tup _, h => congrArg PVal.tup (pyCmpTList_eq_of h)
  | .set _, .set _, h => congrArg PVal.set (pyCmpTList_eq_of h)
  | .dict _, .dict _, h => congrArg PVal.dict (pyCmpTEntries_eq_of h)
  | .int _, .str _, h => nomatch h
  | .int _, .list _, h => nomatch h
  | .int _, .tup _, h => nomatch h
  | .int _, .set _, h => nomatch h
  | .int _, .dict _, h => nomatch h
  | .str _, .int _, h => nomatch h
  | .str _, .list _, h => nomatch h
  | .str _, .tup _, h => nomatch h
  | .str _, .set _, h => nomatch h
  | .str _, .dict _, h => nomatch h
  | .list _, .int _, h => nomatch h
  | .list _, .str _, h => nomatch h
  | .list _, .tup _, h => nomatch h
  | .list _, .set _, h => nomatch h
  | .list _, .dict _, h => nomatch h
  | .tup _, .int _, h => nomatch h
  | .tup _, .str _, h => nomatch h
  | .tup _, .list _, h => nomatch h
  | .tup _, .set _, h => nomatch h
  | .tup _, .dict _, h => nomatch h
  | .set _, .int _, h => nomatch h
  | .set _, .str _, h => nomatch h
  | .set _, .list _, h => nomatch h
  | .set _, .tup _, h => nomatch h
  | .set _, .dict _, h => nomatch h
  | .dict _, .int _, h => nomatch h
  | .dict _, .str _, h => nomatch h
  | .dict _, .list _, h => nomatch h
  | .dict _, .tup _, h => nomatch h
  | .dict _, .set _, h => nomatch h

theorem pyCmpTList_eq_of : ∀ {as bs : List PVal}, pyCmpTList as bs = .eq → as = bs
  | [], [], _ => rfl
  | [], _ :: _, h => nomatch h
  | _ :: _, [], h => nomatch h
  | a :: as, b :: bs, h => by
    rw [pyCmpTList] at h
    rcases hab : pyCmpT a b with _ | _ | _ <;> rw [hab] at h
    · exact absurd h (by simp)
    · rw [pyCmpT_eq_of hab, pyCmpTList_eq_of h]
    · exact absurd h (by simp)

theorem pyCmpTEntries_eq_of : ∀ {as bs : List (String × PVal)},
    pyCmpTEntries as bs = .eq → as = bs
  | [], [], _ => rfl
  | [], _ :: _, h => nomatch h
  | _ :: _, [], h => nomatch h
  | (k1, v1) :: as, (k2, v2) :: bs, h => by
    rw [pyCmpTEntries] at h
    rcases hk : strCmp k1 k2 with _ | _ | _ <;> rw [hk] at h
    · exact absurd h (by simp)
    · rcases hv : pyCmpT v1 v2 with _ | _ | _ <;> rw [hv] at h
      · exact absurd h (by simp)
      · rw [strCmp_eq_iff.mp hk, pyCmpT_eq_of hv, pyCmpTEntries_eq_of h]
      · exact absurd h (by simp)
    · exact absurd h (by simp)

end

mutual

theorem pyCmpT_swap : ∀ (a b : PVal), pyCmpT b a = (pyCmpT a b).swap
  | .int _, .int _ => cmpOrd_swap _ _
  | .str _, .str _ => strCmp_swap _ _
  | .list _, .list _ => pyCmpTList_swap _ _
  | .tup _, .tup _ => pyCmpTList_swap _ _
  | .set _, .set _ => pyCmpTList_swap _ _
  | .dict _, .dict _ => pyCmpTEntries_swap _ _
  | .int _, .str _ => rfl
  | .int _, .list _ => rfl
  | .int _, .tup _ => rfl
  | .int _, .set _ => rfl
  | .int _, .dict _ => rfl
  | .str _, .int _ => rfl
  | .str _, .list _ => rfl
  | .str _, .tup _ => rfl
  | .str _, .set _ => rfl
  | .str _, .dict _ => rfl
  | .list _, .int _ => rfl
  | .list _, .str _ => rfl
  | .list _, .tup _ => rfl
  | .list _, .set _ => rfl
  | .list _, .dict _ => rfl
  | .tup _, .int _ => rfl
  | .tup _, .str _ => rfl
  | .tup _, .list _ => rfl
  | .tup _, .set _ => rfl
  | .tup _, .dict _ => rfl
  | .set _, .int _ => rfl
  | .set _, .str _ => rfl
  | .set _, .list _ => rfl
  | .set _, .tup _ => rfl
  | .set _, .dict _ => rfl
  | .dict _, .int _ => rfl
  | .dict _, .str _ => rfl
  | .dict _, .list _ => rfl
  | .dict _, .tup _ => rfl
  | .dict _, .set _ => rfl

theorem pyCmpTList_swap : ∀ (as bs : List PVal), pyCmpTList bs as = (pyCmpTList as bs).swap
  | [], [] => rfl
  | [], _ :: _ => rfl
  | _ :: _, [] => rfl
  | a :: as, b :: bs => by
    rw [pyCmpTList, pyCmpTList, pyCmpT_swap a b]
    rcases pyCmpT a b with _ | _ | _
    · rfl
    · exact pyCmpTList_swap as bs
    · rfl

theorem pyCmpTEntries_swap : ∀ (as bs : List (String × PVal)),
    pyCmpTEntries bs as = (pyCmpTEntries as bs).swap
  | [], [] => rfl
  | [], _ :: _ => rfl
  | _ :: _, [] => rfl
  | (k1, v1) :: as, (k2, v2) :: bs => by
    rw [pyCmpTEntries, pyCmpTEntries, strCmp_swap k1 k2]
    rcases strCmp k1 k2 with _ | _ | _
    · rfl
    · rw [pyCmpT_swap v1 v2]
      rcases pyCmpT v1 v2 with _ | _ | _
      · rfl
      · exact pyCmpTEntries_swap as bs
      · rfl
    · rfl

end

mutual

theorem pyCmpT_lt_trans : ∀ {a b c : PVal},
    pyCmpT a b = .lt → pyCmpT b c = .lt → pyCmpT a c = .lt
  | .int _, .int _, c, h1, h2 => by
    cases c
    case int => exact cmpOrd_lt_trans h1 h2
    all_goals exact h2
  | .str _, .str _, c, h1, h2 => by
    cases c
    case str => exact strCmp_lt_trans h1 h2
    all_goals exact h2
  | .list _, .list _, c, h1, h2 => by
    cases c
    case list => exact pyCmpTList_lt_trans h1 h2
    all_goals exact h2
  | .tup _, .tup _, c, h1, h2 => by
    cases c
    case tup => exact pyCmpTList_lt_trans h1 h2
    all_goals exact h2
  | .set _, .set _, c, h1, h2 => by
    cases c
    case set => exact pyCmpTList_lt_trans h1 h2
    all_goals exact h2
  | .dict _, .dict _, c, h1, h2 => by
    cases c
    case dict => exact pyCmpTEntries_lt_trans h1 h2
    all_goals exact h2
  | .int _, .str _, c, h1, h2 => by
    cases c <;>
      first
        | exact h1
        | exact cmpOrd_lt_trans h1 h2
        | exact absurd (cmpOrd_lt_iff.mp h2) (lt_asymm (cmpOrd_lt_iff.mp h1))
  | .int _, .list _, c, h1, h2 => by
    cases c <;>
      first
        | exact h1
        | exact cmpOrd_lt_trans h1 h2
        | exact absurd (cmpOrd_lt_iff.mp h2) (lt_asymm (cmpOrd_lt_iff.mp h1))
  | .int _, .tup _, c, h1, h2 => by
    cases c <;>
      first
        | exact h1
        | exact cmpOrd_lt_trans h1 h2
        | exact absurd (cmpOrd_lt_iff.mp h2) (lt_asymm (cmpOrd_lt_iff.mp h1))
  | .int _, .set _, c, h1, h2 => by
    cases c <;>
      first
        | exact h1
        | exact cmpOrd_lt_trans h1 h2
        | exact absurd (cmpOrd_lt_iff.mp h2) (lt_asymm (cmpOrd_lt_iff.mp h1))
  | .int _, .dict _, c, h1, h2 => by
    cases c <;>
      first
        | exact h1
        | exact cmpOrd_lt_trans h1 h2
        | exact absurd (cmpOrd_lt_iff.mp h2) (lt_asymm (cmpOrd_lt_iff.mp h1))
  | .str _, .int _, c, h1, h2 => by
    cases c <;>
      first
        | exact h1
        | exact cmpOrd_lt_trans h1 h2
        | exact absurd (cmpOrd_lt_iff.mp h2) (lt_asymm (cmpOrd_lt_iff.mp h1))
  | .str _, .list _, c, h1, h2 => by
    cases c <;>
      first
        | exact h1
        | exact cmpOrd_lt_trans h1 h2
        | exact absurd (cmpOrd_lt_iff.mp h2) (lt_asymm (cmpOrd_lt_iff.mp h1))
  | .str _, .tup _, c, h1, h2 => by
    cases c <;>
      first
        | exact h1
        | exact cmpOrd_lt_trans h1 h2
        | exact absurd (cmpOrd_lt_iff.mp h2) (lt_asymm (cmpOrd_lt_iff.mp h1))
  | .str _, .set _, c, h1, h2 => by
    cases c <;>
      first
        | exact h1
        | exact cmpOrd_lt_trans h1 h2
        | exact absurd (cmpOrd_lt_iff.mp h2) (lt_asymm (cmpOrd_lt_iff.mp h1))
  | .str _, .dict _, c, h1, h2 => by
    cases c <;>
      first
        | exact h1
        | exact cmpOrd_lt_trans h1 h2
        | exact absurd (cmpOrd_lt_iff.mp h2) (lt_asymm (cmpOrd_lt_iff.mp h1))
  | .list _, .int _, c, h1, h2 => by
    cases c <;>
      first
        | exact h1
        | exact cmpOrd_lt_trans h1 h2
        | exact absurd (cmpOrd_lt_iff.mp h2) (lt_asymm (cmpOrd_lt_iff.mp h1))
  | .list _, .str _, c, h1, h2 => by
    cases c <;>
      first
        | exact h1
        | exact cmpOrd_lt_trans h1 h2
        | exact absurd (cmpOrd_lt_iff.mp h2) (lt_asymm (cmpOrd_lt_iff.mp h1))
  | .list _, .tup _, c, h1, h2 => by
    cases c <;>
      first
        | exact h1
        | exact cmpOrd_lt_trans h1 h2
        | exact absurd (cmpOrd_lt_iff.mp h2) (lt_asymm (cmpOrd_lt_iff.mp h1))
  | .list _, .set _, c, h1, h2 => by
    cases c <;>
      first
        | exact h1
        | exact cmpOrd_lt_trans h1 h2
        | exact absurd (cmpOrd_lt_iff.mp h2) (lt_asymm (cmpOrd_lt_iff.mp h1))
  | .list _, .dict _, c, h1, h2 => by
    cases c <;>
      first
        | exact h1
        | exact cmpOrd_lt_trans h1 h2
        | exact absurd (cmpOrd_lt_iff.mp h2) (lt_asymm (cmpOrd_lt_iff.mp h1))
  | .tup _, .int _, c, h1, h2 => by
    cases c <;>
      first
        | exact h1
        | exact cmpOrd_lt_trans h1 h2
        | exact absurd (cmpOrd_lt_iff.mp h2) (lt_asymm (cmpOrd_lt_iff.mp h1))
  | .tup _, .str _, c, h1, h2 => by
    cases c <;>
      first
        | exact h1
        | exact cmpOrd_lt_trans h1 h2
        | exact absurd (cmpOrd_lt_iff.mp h2) (lt_asymm (cmpOrd_lt_iff.mp h1))
  | .tup _, .list _, c, h1, h2 => by
    cases c <;>
      first
        | exact h1
        | exact cmpOrd_lt_trans h1 h2
        | exact absurd (cmpOrd_lt_iff.mp h2) (lt_asymm (cmpOrd_lt_iff.mp h1))
  | .tup _, .set _, c, h1, h2 => by
    cases c <;>
      first
        | exact h1
        | exact cmpOrd_lt_trans h1 h2
        | exact absurd (cmpOrd_lt_iff.mp h2) (lt_asymm (cmpOrd_lt_iff.mp h1))
  | .tup _, .dict _, c, h1, h2 => by
    cases c <;>
      first
        | exact h1
        | exact cmpOrd_lt_trans h1 h2
        | exact absurd (cmpOrd_lt_iff.mp h2) (lt_asymm (cmpOrd_lt_iff.mp h1))
  | .set _, .int _, c, h1, h2 => by
    cases c <;>
      first
        | exact h1
        | exact cmpOrd_lt_trans h1 h2
        | exact absurd (cmpOrd_lt_iff.mp h2) (lt_asymm (cmpOrd_lt_iff.mp h1))
  | .set _, .str _, c, h1, h2 => by
    cases c <;>
      first
        | exact h1
        | exact cmpOrd_lt_trans h1 h2
        | exact absurd (cmpOrd_lt_iff.mp h2) (lt_asymm (cmpOrd_lt_iff.mp h1))
  | .set _, .list _, c, h1, h2 => by
    cases c <;>
      first
        | exact h1
        | exact cmpOrd_lt_trans h1 h2
        | exact absurd (cmpOrd_lt_iff.mp h2) (lt_asymm (cmpOrd_lt_iff.mp h1))
  | .set _, .tup _, c, h1, h2 => by
    cases c <;>
      first
        | exact h1
        | exact cmpOrd_lt_trans h1 h2
        | exact absurd (cmpOrd_lt_iff.mp h2) (lt_asymm (cmpOrd_lt_iff.mp h1))
  | .set _, .dict _, c, h1, h2 => by
    cases c <;>
      first
        | exact h1
        | exact cmpOrd_lt_trans h1 h2
        | exact absurd (cmpOrd_lt_iff.mp h2) (lt_asymm (cmpOrd_lt_iff.mp h1))
  | .dict _, .int _, c, h1, h2 => by
    cases c <;>
      first
        | exact h1
        | exact cmpOrd_lt_trans h1 h2
        | exact absurd (cmpOrd_lt_iff.mp h2) (lt_asymm (cmpOrd_lt_iff.mp h1))
  | .dict _, .str _, c, h1, h2 => by
    cases c <;>
      first
        | exact h1
        | exact cmpOrd_lt_trans h1 h2
        | exact absurd (cmpOrd_lt_iff.mp h2) (lt_asymm (cmpOrd_lt_iff.mp h1))
  | .dict _, .list _, c, h1, h2 => by
    cases c <;>
      first
        | exact h1
        | exact cmpOrd_lt_trans h1 h2
        | exact absurd (cmpOrd_lt_iff.mp h2) (lt_asymm (cmpOrd_lt_iff.mp h1))
  | .dict _, .tup _, c, h1, h2 => by
    cases c <;>
      first
        | exact h1
        | exact cmpOrd_lt_trans h1 h2
        | exact absurd (cmpOrd_lt_iff.mp h2) (lt_asymm (cmpOrd_lt_iff.mp h1))
  | .dict _, .set _, c, h1, h2 => by
    cases c <;>
      first
        | exact h1
        | exact cmpOrd_lt_trans h1 h2
        | exact absurd (cmpOrd_lt_iff.mp h2) (lt_asymm (cmpOrd_lt_iff.mp h1))

theorem pyCmpTList_lt_trans : ∀ {as bs cs : List PVal},
    pyCmpTList as bs = .lt → pyCmpTList bs cs = .lt → pyCmpTList as cs = .lt
  | [], [], _, h1, _ => nomatch h1
  | [], _ :: _, [], _, h2 => nomatch h2
  | [], _ :: _, _ :: _, _, _ => rfl
  | _ :: _, [], _, h1, _ => nomatch h1
  | _ :: _, _ :: _, [], _, h2 => nomatch h2
  | a :: as, b :: bs, c :: cs, h1, h2 => by
    rw [pyCmpTList] at h1 h2 ⊢
    rcases hab : pyCmpT a b with _ | _ | _ <;> rw [hab] at h1
    · rcases hbc : pyCmpT b c with _ | _ | _ <;> rw [hbc] at h2
      · rw [pyCmpT_lt_trans hab hbc]
      · rw [← pyCmpT_eq_of hbc, hab]
      · exact absurd h2 (by simp)
    · rcases hbc : pyCmpT b c with _ | _ | _ <;> rw [hbc] at h2
      · rw [pyCmpT_eq_of hab, hbc]
      · rw [pyCmpT_eq_of hab, hbc]
        exact pyCmpTList_lt_trans h1 h2
      · exact absurd h2 (by simp)
    · exact absurd h1 (by simp)

theorem pyCmpTEntries_lt_trans : ∀ {as bs cs : List (String × PVal)},
    pyCmpTEntries as bs = .lt → pyCmpTEntries bs cs = .lt → pyCmpTEntries as cs = .lt
  | [], [], _, h1, _ => nomatch h1
  | [], _ :: _, [], _, h2 => nomatch h2
  | [], _ :: _, _ :: _, _, _ => rfl
  | _ :: _, [], _, h1, _ => nomatch h1
  | _ :: _, _ :: _, [], _, h2 => nomatch h2
  | (k1, v1) :: as, (k2, v2) :: bs, (k3, v3) :: cs, h1, h2 => by
    rw [pyCmpTEntries] at h1 h2 ⊢
    rcases hk12 : strCmp k1 k2 with _ | _ | _ <;> rw [hk12] at h1
    · rcases hk23 : strCmp k2 k3 with _ | _ | _ <;> rw [hk23] at h2
      · rw [strCmp_lt_trans hk12 hk23]
      · rw [← strCmp_eq_iff.mp hk23, hk12]
      · exact absurd h2 (by simp)
    · rcases hk23 : strCmp k2 k3 with _ | _ | _ <;> rw [hk23] at h2
      · rw [strCmp_eq_iff.mp hk12, hk23]
      · rw [strCmp_eq_iff.mp hk12, hk23]
        rcases hv12 : pyCmpT v1 v2 with _ | _ | _ <;> rw [hv12] at h1
        · rcases hv23 : pyCmpT v2 v3 with _ | _ | _ <;> rw [hv23] at h2
          · rw [pyCmpT_lt_trans hv12 hv23]
          · rw [← pyCmpT_eq_of hv23, hv12]
          · exact absurd h2 (by simp)
        · rcases hv23 : pyCmpT v2 v3 with _ | _ | _ <;> rw [hv23] at h2
          · rw [pyCmpT_eq_of hv12, hv23]
          · rw [pyCmpT_eq_of hv12, hv23]
            exact pyCmpTEntries_lt_trans h1 h2
          · exact absurd h2 (by simp)
        · exact absurd h1 (by simp)
      · exact absurd h2 (by simp)
    · exact absurd h1 (by simp)

end

/-- The total order used by the model's `sorted`; on Python-comparable
pairs it coincides with Python's `<=` (see `pyCmp_pyCmpT_agree`). -/
def pyLeT (a b : PVal) : Prop := pyCmpT a b ≠ Ordering.gt

instance : DecidableRel pyLeT := fun _ _ => instDecidableNot

mutual

theorem pyCmpT_refl : ∀ (a : PVal), pyCmpT a a = Ordering.eq
  | .int _ => cmpOrd_refl _
  | .str _ => strCmp_refl _
  | .list xs => pyCmpTList_refl xs
  | .tup xs => pyCmpTList_refl xs
  | .set xs => pyCmpTList_refl xs
  | .dict es => pyCmpTEntries_refl es

theorem pyCmpTList_refl : ∀ (xs : List PVal), pyCmpTList xs xs = Ordering.eq
  | [] => rfl
  | a :: as => by rw [pyCmpTList, pyCmpT_refl a]; exact pyCmpTList_refl as

theorem pyCmpTEntries_refl : ∀ (es : List (String × PVal)), pyCmpTEntries es es = Ordering.eq
  | [] => rfl
  | (k, v) :: rest => by
    rw [pyCmpTEntries, strCmp_refl k, pyCmpT_refl v]
    exact pyCmpTEntries_refl rest

end

theorem pyCmpT_eq_iff {a b : PVal} : pyCmpT a b = .eq ↔ a = b :=
  ⟨pyCmpT_eq_of, fun h => h ▸ pyCmpT_refl a⟩

instance : DecidableEq PVal := fun a b =>
  decidable_of_iff (pyCmpT a b = .eq) pyCmpT_eq_iff

instance : IsTotal PVal pyLeT where
  total a b := by
    unfold pyLeT
    rw [pyCmpT_swap a b]
    rcases pyCmpT a b with _ | _ | _ <;> simp [Ordering.swap]

instance : IsTrans PVal pyLeT where
  trans a b c h1 h2 := by
    unfold pyLeT at *
    rcases hab : pyCmpT a b with _ | _ | _
    · rcases hbc : pyCmpT b c with _ | _ | _
      · rw [pyCmpT_lt_trans hab hbc]; simp
      · rw [← pyCmpT_eq_of hbc, hab]; simp
      · exact absurd hbc h2
    · rw [pyCmpT_eq_of hab]; exact h2
    · exact absurd hab h1

instance : IsAntisymm PVal pyLeT where
  antisymm a b h1 h2 := by
    unfold pyLeT at *
    rcases hab : pyCmpT a b with _ | _ | _
    · rw [pyCmpT_swap a b, hab] at h2
      exact absurd rfl h2
    · exact pyCmpT_eq_of hab
    · exact absurd hab h1

/-- The model of Python's `sorted(...)` when no `TypeError` occurs. On a
list whose elements are pairwise Python-comparable this computes exactly
Python's sort order (`pyLeT` refines `pyCmp`, see `pyCmp_pyCmpT_agree`). -/
def pySort (xs : List PVal) : List PVal := List.insertionSort pyLeT xs

theorem pySort_canonical {xs ys : List PVal} (h : xs.Perm ys) : pySort xs = pySort ys :=
  List.eq_of_perm_of_sorted
    (((List.perm_insertionSort pyLeT xs).trans h).trans
      (List.perm_insertionSort pyLeT ys).symm)
    (List.sorted_insertionSort pyLeT xs)
    (List.sorted_insertionSort pyLeT ys)

mutual

theorem pyCmp_pyCmpT_agree : ∀ {a b : PVal} {o : Ordering},
    pyCmp a b = some o → pyCmpT a b = o
  | .int _, .int _, _, h => by rw [pyCmpT]; injection h
  | .str _, .str _, _, h => by rw [pyCmpT]; injection h
  | .list _, .list _, _, h => by rw [pyCmpT]; exact pyCmpList_pyCmpTList_agree h
  | .tup _, .tup _, _, h => by rw [pyCmpT]; exact pyCmpList_pyCmpTList_agree h
  | .int _, .str _, _, h => nomatch h
  | .int _, .list _, _, h => nomatch h
  | .int _, .tup _, _, h => nomatch h
  | .int _, .set _, _, h => nomatch h
  | .int _, .dict _, _, h => nomatch h
  | .str _, .int _, _, h => nomatch h
  | .str _, .list _, _, h => nomatch h
  | .str _, .tup _, _, h => nomatch h
  | .str _, .set _, _, h => nomatch h
  | .str _, .dict _, _, h => nomatch h
  | .list _, .int _, _, h => nomatch h
  | .list _, .str _, _, h => nomatch h
  | .list _, .tup _, _, h => nomatch h
  | .list _, .set _, _, h => nomatch h
  | .list _, .dict _, _, h => nomatch h
  | .tup _, .int _, _, h => nomatch h
  | .tup _, .str _, _, h => nomatch h
  | .tup _, .list _, _, h => nomatch h
  | .tup _, .set _, _, h => nomatch h
  | .tup _, .dict _, _, h => nomatch h
  | .set _, _, _, h => nomatch h
  | .dict _, _, _, h => nomatch h

theorem pyCmpList_pyCmpTList_agree : ∀ {as bs : List PVal} {o : Ordering},
    pyCmpList as bs = some o → pyCmpTList as bs = o
  | [], [], _, h => by rw [pyCmpTList]; injection h
  | [], _ :: _, _, h => by rw [pyCmpTList]; injection h
  | _ :: _, [], _, h => by rw [pyCmpTList]; injection h
  | a :: as, b :: bs, o, h => by
    rw [pyCmpList] at h
    rw [pyCmpTList]
    rcases hab : pyCmp a b with _ | oab
    · rw [hab] at h; exact absurd h (by simp)
    · rw [hab] at h
      rw [pyCmp_pyCmpT_agree hab]
      rcases oab with _ | _ | _
      · injection h
      · exact pyCmpList_pyCmpTList_agree h
      · injection h

end

/-! ### Association lists (Python dict semantics)

Python dicts preserve insertion order; updating an existing key keeps its
position. States built by the model always have distinct keys, so removing
every binding of a key models `del`. -/

def alGet {β : Type} : List (String × β) → String → Option β
  | [], _ => none
  | (k0, v0) :: rest, k => if k0 = k then some v0 else alGet rest k

def alSet {β : Type} : List (String × β) → String → β → List (String × β)
  | [], k, v => [(k, v)]
  | (k0, v0) :: rest, k, v =>
    if k0 = k then (k, v) :: rest else (k0, v0) :: alSet rest k v

def alDel {β : Type} : List (String × β) → String → List (String × β)
  | [], _ => []
  | (k0, v0) :: rest, k =>
    if k0 = k then alDel rest k else (k0, v0) :: alDel rest k

/-! ### Argument normalization (`EntityCache._normalize_value`, cache.py:642-667) -/

/-- A pair Python can compare without `TypeError`. -/
def pyComparable (a b : PVal) : Bool := (pyCmp a b).isSome

/-- Every pair of elements is Python-comparable: the approximation of
"`sorted(value)` raises no `TypeError`" used by the model. -/
def allComparable (xs : List PVal) : Bool :=
  xs.all fun a => xs.all fun b => pyComparable a b

/-- Key order on dict items; `sorted(d.items())` compares the key
components first, and since dict keys are distinct the values are never
compared. -/
def entryLe (a b : String × PVal) : Prop := strCmp a.1 b.1 ≠ Ordering.gt

instance : DecidableRel entryLe := fun _ _ => instDecidableNot

instance : IsTotal (String × PVal) entryLe where
  total a b := by
    unfold entryLe
    rw [strCmp_swap a.1 b.1]
    rcases strCmp a.1 b.1 with _ | _ | _ <;> simp [Ordering.swap]

instance : IsTrans (String × PVal) entryLe where
  trans a b c h1 h2 := by
    unfold entryLe at *
    rcases hab : strCmp a.1 b.1 with _ | _ | _
    · rcases hbc : strCmp b.1 c.1 with _ | _ | _
      · rw [strCmp_lt_trans hab hbc]; simp
      · rw [← strCmp_eq_iff.mp hbc, hab]; simp
      · exact absurd hbc h2
    · rw [strCmp_eq_iff.mp hab]; exact h2
    · exact absurd hab h1

/-- Model of `sorted(d.items())` on dict items with distinct keys. -/
def sortEntriesByKey (es : List (String × PVal)) : List (String × PVal) :=
  List.insertionSort entryLe es

mutual

/-- Model of `EntityCache._normalize_value`: sorts lists and sets; sorts
tuples into lists; on `TypeError` (some pair incomparable) keeps the
original order (a tuple stays a tuple, a set becomes a list); recursively
normalizes dict values and sorts dict keys. In the source the dict branch
sorts the items first and then normalizes each value; since sorting only
permutes entries and normalization keeps keys unchanged, normalizing first
and then sorting (as written here, for structural termination) produces the
same entry list. -/
def normalizeValue : PVal → PVal
  | .list xs => if allComparable xs then .list (pySort xs) else .list xs
  | .tup xs => if allComparable xs then .list (pySort xs) else .tup xs
  | .set xs => if allComparable xs then .list (pySort xs) else .list xs
  | .dict es => .dict (sortEntriesByKey (normalizeEntries es))
  | .int n => .int n
  | .str s => .str s

def normalizeEntries : List (String × PVal) → List (String × PVal)
  | [] => []
  | (k, v) :: rest => (k, normalizeValue v) :: normalizeEntries rest

end


/-- Model of `_normalize_params` for keyword arguments (cache.py:623-627):
`{key: _normalize_value(value) for key, value in sorted(kwargs.items())}`. -/
def normalizeKwargs (kwargs : List (String × PVal)) : List (String × PVal) :=
  sortEntriesByKey (normalizeEntries kwargs)

/-- Model of `_normalize_params` (cache.py:578-629) with `normalize=True`:
positional arguments are rebound to their parameter names (`self`/`cls`
already stripped from `paramNames`), the positional tuple becomes empty,
and keyword values are normalized with keys sorted. -/
def normalizeParams (paramNames : List String) (args : List PVal)
    (kwargs : List (String × PVal)) (normalize : Bool) :
    List PVal × List (String × PVal) :=
  if normalize then
    let processedKwargs :=
      (List.zip paramNames args).foldl (fun acc kv => alSet acc kv.1 kv.2) kwargs
    ([], normalizeKwargs processedKwargs)
  else (args, kwargs)

/-! ### Key construction (`EntityCache.construct_key` / `_generate_key`,
cache.py:669-738) -/

/-- Single-quote character, written by code point to keep string literals
plain. -/
def pyQuote : String := String.singleton (Char.ofNat 39)

/-- Opening curly brace as a string. -/
def lbr : String := String.singleton (Char.ofNat 123)

/-- Closing curly brace as a string. -/
def rbr : String := String.singleton (Char.ofNat 125)

mutual

/-- Model of Python `str(...)` on argument tuples and keyword items as used
by `_generate_key` (cache.py:724-725): `repr` of nested values, `'...'`
quoting for strings (escaping inside string contents is not modelled),
`(x,)` for one-element tuples, `set()` for the empty set. -/
def reprPVal : PVal → String
  | .int n => toString n
  | .str s => pyQuote ++ s ++ pyQuote
  | .list xs => "[" ++ String.intercalate ", " (reprPValList xs) ++ "]"
  | .tup [x] => "(" ++ reprPVal x ++ ",)"
  | .tup xs => "(" ++ String.intercalate ", " (reprPValList xs) ++ ")"
  | .set [] => "set()"
  | .set xs => lbr ++ String.intercalate ", " (reprPValList xs) ++ rbr
  | .dict es => lbr ++ String.intercalate ", " (reprEntryList es) ++ rbr

def reprPValList : List PVal → List String
  | [] => []
  | x :: xs => reprPVal x :: reprPValList xs

def reprEntryList : List (String × PVal) → List String
  | [] => []
  | (k, v) :: rest => (pyQuote ++ k ++ pyQuote ++ ": " ++ reprPVal v) :: reprEntryList rest

end

/-- Model of Python `str(...)` on a single value: like `repr` but a bare
string stays unquoted (used by `_keyify_entity_id`). -/
def pyStr : PVal → String
  | .int n => toString n
  | .str s => s
  | v => reprPVal v

/-- Model of `EntityCache._keyify_entity_id` (cache.py:631-640): a
composite id (list or tuple) is hyphen-joined, anything else is `str`-ed. -/
def keyifyEntityId : PVal → String
  | .list xs => String.intercalate "-" (xs.map pyStr)
  | .tup xs => String.intercalate "-" (xs.map pyStr)
  | v => pyStr v

/-- Model of `EntityCache._generate_key` (cache.py:711-738). The md5
hex digest is abstracted as the function parameter `h`; everything proved
about keys holds for every choice of `h`. -/
def generateKey (h : String → String) (pfx : String) (args : List PVal)
    (kwargs : List (String × PVal)) : String :=
  let argsStr := if args.isEmpty then "" else reprPVal (.tup args)
  let kwargsStr :=
    if kwargs.isEmpty then ""
    else reprPVal (.list ((sortEntriesByKey kwargs).map fun kv => .tup [.str kv.1, kv.2]))
  let paramsStr := argsStr ++ kwargsStr
  let paramsHash := if paramsStr = "" then "noargs" else h paramsStr
  "cache:" ++ pfx ++ ":" ++ paramsHash

/-- The identity and stamped attributes of a Python function object as
read by `construct_key` via `getattr(func, ..., None)`. A freshly
decorated inner function carries no stamped attributes (`none`). -/
structure PyFunc where
  module : String
  name : String
  attrCacheKey : Option String := none
  attrEntity : Option String := none
  attrScope : Option String := none

/-- Python `a or b` for two optional strings (`None` and `""` are falsy). -/
def pyOrOpt (a b : Option String) : Option String :=
  match a with
  | some s => if s = "" then b else some s
  | none => b

/-- Python `a or b` where `b` is a plain string. -/
def pyOrStr (a : Option String) (b : String) : String :=
  match a with
  | some s => if s = "" then b else s
  | none => b

/-- Python truthiness of an optional string. -/
def truthyStr : Option String → Option String
  | some s => if s = "" then none else some s
  | none => none

/-- Model of `EntityCache.construct_key` (cache.py:669-709): wrapper
attributes take priority over explicit parameters; an explicit cache key
wins, else scope `entity` with an entity set gives prefix
`entity:{entityType}`, else the prefix is `{module}.{name}`. -/
def construct_key (h : String → String) (func : PyFunc)
    (cache_key : Option String) (entity : Option String) (scope : String)
    (args : List PVal) (kwargs : List (String × PVal)) : String :=
  let effectiveCacheKey := pyOrOpt func.attrCacheKey cache_key
  let effectiveEntity := pyOrOpt func.attrEntity entity
  let effectiveScope := pyOrStr func.attrScope scope
  let pfx :=
    match truthyStr effectiveCacheKey with
    | some ck => ck
    | none =>
      if effectiveScope = "entity" then
        match truthyStr effectiveEntity with
        | some e => "entity:" ++ e
        | none => func.module ++ "." ++ func.name
      else func.module ++ "." ++ func.name
  generateKey h pfx args kwargs

/-! ### Entity-id extraction (`cacheref/idextractor.py`) -/

/-- Function results handled by `extract_entity_ids`: primitives, dicts
(`item.get(field)`), and sequences thereof. Attribute-bearing objects are
represented by their field dict. -/
inductive RVal where
  | int (n : Int)
  | str (s : String)
  | dict (fields : List (String × RVal))
  | seq (xs : List RVal)

/-- Constructor rank for `RVal`, used only to decide equality. -/
def rvRank : RVal → Nat
  | .int _ => 0
  | .str _ => 1
  | .dict _ => 2
  | .seq _ => 3

mutual

/-- Total comparison on `RVal`, used only to decide equality (Python set
membership in `extract_entity_ids`). -/
def rvCmp : RVal → RVal → Ordering
  | .int a, .int b => cmpOrd a b
  | .str a, .str b => strCmp a b
  | .dict a, .dict b => rvCmpEntries a b
  | .seq a, .seq b => rvCmpList a b
  | a, b => cmpOrd (rvRank a) (rvRank b)

def rvCmpList : List RVal → List RVal → Ordering
  | [], [] => .eq
  | [], _ :: _ => .lt
  | _ :: _, [] => .gt
  | a :: as, b :: bs =>
    match rvCmp a b with
    | .eq => rvCmpList as bs
    | o => o

def rvCmpEntries : List (String × RVal) → List (String × RVal) → Ordering
  | [], [] => .eq
  | [], _ :: _ => .lt
  | _ :: _, [] => .gt
  | (k1, v1) :: as, (k2, v2) :: bs =>
    match strCmp k1 k2 with
    | .eq =>
      match rvCmp v1 v2 with
      | .eq => rvCmpEntries as bs
      | o => o
    | o => o

end

mutual

theorem rvCmp_eq_of : ∀ {a b : RVal}, rvCmp a b = .eq → a = b
  | .int _, .int _, h => congrArg RVal.int (cmpOrd_eq_iff.mp h)
  | .str _, .str _, h => congrArg RVal.str (strCmp_eq_iff.mp h)
  | .dict _, .dict _, h => congrArg RVal.dict (rvCmpEntries_eq_of h)
  | .seq _, .seq _, h => congrArg RVal.seq (rvCmpList_eq_of h)
  | .int _, .str _, h => nomatch h
  | .int _, .dict _, h => nomatch h
  | .int _, .seq _, h => nomatch h
  | .str _, .int _, h => nomatch h
  | .str _, .dict _, h => nomatch h
  | .str _, .seq _, h => nomatch h
  | .dict _, .int _, h => nomatch h
  | .dict _, .str _, h => nomatch h
  | .dict _, .seq _, h => nomatch h
  | .seq _, .int _, h => nomatch h
  | .seq _, .str _, h => nomatch h
  | .seq _, .dict _, h => nomatch h

theorem rvCmpList_eq_of : ∀ {as bs : List RVal}, rvCmpList as bs = .eq → as = bs
  | [], [], _ => rfl
  | [], _ :: _, h => nomatch h
  | _ :: _, [], h => nomatch h
  | a :: as, b :: bs, h => by
    rw [rvCmpList] at h
    rcases hab : rvCmp a b with _ | _ | _ <;> rw [hab] at h
    · exact absurd h (by simp)
    · rw [rvCmp_eq_of hab, rvCmpList_eq_of h]
    · exact absurd h (by simp)

theorem rvCmpEntries_eq_of : ∀ {as bs : List (String × RVal)},
    rvCmpEntries as bs = .eq → as = bs
  | [], [], _ => rfl
  | [], _ :: _, h => nomatch h
  | _ :: _, [], h => nomatch h
  | (k1, v1) :: as, (k2, v2) :: bs, h => by
    rw [rvCmpEntries] at h
    rcases hk : strCmp k1 k2 with _ | _ | _ <;> rw [hk] at h
    · exact absurd h (by simp)
    · rcases hv : rvCmp v1 v2 with _ | _ | _ <;> rw [hv] at h
      · exact absurd h (by simp)
      · rw [strCmp_eq_iff.mp hk, rvCmp_eq_of hv, rvCmpEntries_eq_of h]
      · exact absurd h (by simp)
    · exact absurd h (by simp)

end

mutual

theorem rvCmp_refl : ∀ (a : RVal), rvCmp a a = Ordering.eq
  | .int _ => cmpOrd_refl _
  | .str _ => strCmp_refl _
  | .dict es => rvCmpEntries_refl es
  | .seq xs => rvCmpList_refl xs

theorem rvCmpList_refl : ∀ (xs : List RVal), rvCmpList xs xs = Ordering.eq
  | [] => rfl
  | a :: as => by rw [rvCmpList, rvCmp_refl a]; exact rvCmpList_refl as

theorem rvCmpEntries_refl : ∀ (es : List (String × RVal)),
    rvCmpEntries es es = Ordering.eq
  | [] => rfl
  | (k, v) :: rest => by
    rw [rvCmpEntries, strCmp_refl k, rvCmp_refl v]
    exact rvCmpEntries_refl rest

end

instance : DecidableEq RVal := fun a b =>
  decidable_of_iff (rvCmp a b = .eq) ⟨rvCmp_eq_of, fun h => h ▸ rvCmp_refl a⟩

/-- An extraction rule: a field name, or a callable (which may raise,
embedded as `Except`, and may return `None`, embedded as `none`). -/
inductive Extractor where
  | field (name : String)
  | callable (f : RVal → Except Unit (Option RVal))

/-- The `id_key` argument: a single rule, or a list of rules
(`isinstance(id_key, (list, tuple))` in `extract_entity_ids`). -/
inductive IdSpec where
  | one (e : Extractor)
  | many (es : List Extractor)

/-- Errors inside extraction: `IdExtractorError` (caught and skipped by the
per-item loop) versus `ValueError` (propagating out of the loop). -/
inductive ExErr where
  | idExtract
  | valueErr
deriving DecidableEq

/-- `supported_id_types = (str, int)`: runtime type check of an extracted
id. -/
def supportedId : RVal → Bool
  | .int _ => true
  | .str _ => true
  | _ => false

/-- Model of `_parse_item_id` (idextractor.py:91-112): a callable is
invoked with exceptions wrapped into `IdExtractorError`; a field name does
a dict lookup (`None` when missing), and a non-dict item is returned
itself. -/
def parseItemId (item : RVal) : Extractor → Except ExErr (Option RVal)
  | .callable f =>
    match f item with
    | .ok v => .ok v
    | .error _ => .error .idExtract
  | .field s =>
    match item with
    | .dict fields => .ok (alGet fields s)
    | _ => .ok (some item)

/-- Model of `_first_result_from_extractors` (idextractor.py:114-147): try
the rules in order; a rule failing with `IdExtractorError` is skipped; a
`None` result raises `ValueError` when `fail_on_missing_id` else the rule
is skipped; the first produced id is returned if its type is supported,
else `ValueError`; when no rule produces an id the loop falls through to
`IdExtractorError` or `None` depending on `fail_on_missing_id`. -/
def firstResultFromExtractors (item : RVal) (exs : List Extractor)
    (failOnMissing : Bool) : Except ExErr (Option RVal) :=
  match exs with
  | [] => if failOnMissing then .error .idExtract else .ok none
  | ex :: rest =>
    match parseItemId item ex with
    | .error .idExtract => firstResultFromExtractors item rest failOnMissing
    | .error e => .error e
    | .ok none =>
      if failOnMissing then .error .valueErr
      else firstResultFromExtractors item rest failOnMissing
    | .ok (some v) =>
      if supportedId v then .ok (some v) else .error .valueErr

/-- Python `set` insertion: ids are collected without duplicates, in
insertion order. -/
def pyInsert (ids : List RVal) (v : RVal) : List RVal :=
  if v ∈ ids then ids else ids ++ [v]

/-- Model of `extract_entity_ids` (idextractor.py:34-89): a list/tuple
result is traversed item by item, a single object is handled once; ids of
`None` are skipped; every error escaping the loop is re-raised as
`IdExtractorError`. -/
def extract_entity_ids (result : RVal) (idKey : IdSpec)
    (failOnMissing : Bool) : Except ExErr (List RVal) :=
  let exs := match idKey with
    | .one e => [e]
    | .many es => es
  let run : Except ExErr (List RVal) :=
    match result with
    | .seq items =>
      items.foldlM
        (fun ids item => do
          let r ← firstResultFromExtractors item exs failOnMissing
          match r with
          | some v => pure (pyInsert ids v)
          | none => pure ids)
        []
    | item => do
      let r ← firstResultFromExtractors item exs failOnMissing
      match r with
      | some v => pure (pyInsert [] v)
      | none => pure []
  match run with
  | .ok ids => .ok ids
  | .error _ => .error .idExtract

/-- Modelled from the spec (refinement comparison only, not from the
source): "for a composite spec (list of rules), apply every rule and
collect all produced ids into one ordered tuple (a composite
identifier)". -/
def perItemCompositeSpec (item : RVal) (exs : List Extractor) :
    Except ExErr (Option RVal) := do
  let vals ← exs.mapM (fun ex => parseItemId item ex)
  let collected := vals.filterMap id
  if collected.isEmpty then pure none else pure (some (.seq collected))

/-! ### In-memory backend (`cacheref/backends/memory.py`)

State of a `MemoryBackend`: the scalar store `data`, the set store `sets`
(member lists in insertion order), the expiry table `expires` holding
absolute expiry instants (`time.time() + seconds`), and the configured
`key_prefix`. The current time is passed explicitly as `now`. -/

structure MB where
  kp : String
  data : List (String × String)
  sets : List (String × List String)
  expires : List (String × Int)
deriving DecidableEq

/-- `MemoryBackend._prefix_key`. -/
def MB.prefixedKey (st : MB) (k : String) : String := st.kp ++ k

/-- `MemoryBackend._check_expiry` (memory.py:56-76): a key whose expiry
instant is in the past is removed from all three tables (`pk` is already
prefixed). -/
def MB.checkExpiry (st : MB) (now : Int) (pk : String) : MB :=
  match alGet st.expires pk with
  | some e =>
    if e < now then
      { st with data := alDel st.data pk, sets := alDel st.sets pk,
                expires := alDel st.expires pk }
    else st
  | none => st

/-- `MemoryBackend.get` (memory.py:78-86): expiry check, then lookup. -/
def MB.get (st : MB) (now : Int) (k : String) : Option String × MB :=
  let pk := st.prefixedKey k
  let st1 := st.checkExpiry now pk
  (alGet st1.data pk, st1)

/-- `MemoryBackend.set` (memory.py:88-96): store the value; a truthy
`expire` is recorded as an absolute instant. -/
def MB.set (st : MB) (now : Int) (k : String) (v : String)
    (expire : Option Int) : MB :=
  let pk := st.prefixedKey k
  let st1 := { st with data := alSet st.data pk v }
  match expire with
  | some e => if e ≠ 0 then { st1 with expires := alSet st1.expires pk (now + e) } else st1
  | none => st1

/-- `MemoryBackend.setex` (memory.py:98-101). -/
def MB.setex (st : MB) (now : Int) (k : String) (e : Int) (v : String) : MB :=
  st.set now k v (some e)

/-- `MemoryBackend.delete` for a single key (one iteration of the loop in
memory.py:103-117): the count grows only when the key was present in the
scalar store; set and expiry entries are removed regardless. -/
def MB.deleteOne (st : MB) (k : String) : Nat × MB :=
  let pk := st.prefixedKey k
  let c := if (alGet st.data pk).isSome then 1 else 0
  (c, { st with data := alDel st.data pk, sets := alDel st.sets pk,
                expires := alDel st.expires pk })

/-- `MemoryBackend.delete` (memory.py:103-117) over all given keys. -/
def MB.delete (st : MB) (ks : List String) : Nat × MB :=
  ks.foldl (fun acc k => (acc.1 + (acc.2.deleteOne k).1, (acc.2.deleteOne k).2)) (0, st)

/-- `MemoryBackend.sadd` (memory.py:144-160): expiry check, create the set
when absent, count only newly added members. -/
def MB.sadd (st : MB) (now : Int) (k : String) (vs : List String) : Nat × MB :=
  let pk := st.prefixedKey k
  let st1 := st.checkExpiry now pk
  let cur := (alGet st1.sets pk).getD []
  let r := vs.foldl
    (fun (acc : Nat × List String) v =>
      if v ∈ acc.2 then acc else (acc.1 + 1, acc.2 ++ [v]))
    (0, cur)
  (r.1, { st1 with sets := alSet st1.sets pk r.2 })

/-- `MemoryBackend.smembers` (memory.py:162-170): expiry check, then the
set or the empty set. -/
def MB.smembers (st : MB) (now : Int) (k : String) : List String × MB :=
  let pk := st.prefixedKey k
  let st1 := st.checkExpiry now pk
  ((alGet st1.sets pk).getD [], st1)

/-- `MemoryBackend.expire` (memory.py:172-180): only keys present in the
scalar or set store get an expiry. -/
def MB.expire (st : MB) (now : Int) (k : String) (secs : Int) : Bool × MB :=
  let pk := st.prefixedKey k
  if (alGet st.data pk).isSome || (alGet st.sets pk).isSome then
    (true, { st with expires := alSet st.expires pk (now + secs) })
  else (false, st)

/-- `CacheBackend.ttl` (base.py:71-81) as inherited by `MemoryBackend`,
which defines no override: every call raises `NotImplementedError`. -/
def mbTtl (_k : String) (_st : MB) : Except String Int :=
  .error "Backend must implement ttl()"

/-- Commands queued on a `MemoryPipeline` (memory.py:188-227). -/
inductive PipeCmd where
  | setex (k : String) (e : Int) (v : String)
  | sadd (k : String) (v : String)
  | expire (k : String) (secs : Int)
  | del (k : String)

/-- `MemoryPipeline.execute` (memory.py:216-227): the queued backend
methods run sequentially under one lock; results are collected by the
caller but only the state matters here. -/
def execPipe (now : Int) (cmds : List PipeCmd) (st : MB) : MB :=
  cmds.foldl
    (fun s c =>
      match c with
      | .setex k e v => s.setex now k e v
      | .sadd k v => (s.sadd now k [v]).2
      | .expire k secs => (s.expire now k secs).2
      | .del k => (s.deleteOne k).2)
    st

/-! ### Cache engine write path and invalidation (`cacheref/cache.py`) -/

/-- `EntityCache.reverse_index_ttl_gap` (cache.py:158). -/
def reverseIndexGap : Int := 300

/-- Model of `EntityCache._cache` (cache.py:496-571) executing against a
`MemoryBackend`. `ids` are the keyified entity ids extracted from the
result (`extract_entity_ids` composed with `_keyify_entity_id`);
`resultTruthy` is the Python truthiness of the result; serialization has
already succeeded, producing `valS`. Every exception inside the inner
`try` is caught (`except Exception`), in which case no command of the main
pipeline has been executed and the state is unchanged. -/
def cacheWriteMB (key : String) (ttl : Int) (valS : String)
    (entity : Option String) (resultTruthy : Bool) (ids : List String)
    (now : Int) (st : MB) : MB :=
  let attempt : Except String MB := do
    let pipe0 : List PipeCmd := [.setex key ttl valS]
    let pipe ←
      match truthyStr entity, resultTruthy with
      | some e, true => do
        let entityKeys := ids.map fun i => "entity:" ++ e ++ ":" ++ i
        let entityTtls ← entityKeys.mapM fun ek => mbTtl ek st
        if ids.isEmpty then pure pipe0
        else
          pure ((entityKeys.zip entityTtls).foldl
            (fun acc p =>
              acc ++ [.sadd p.1 key] ++
                (if p.2 < 0 || ttl + reverseIndexGap > p.2 then
                  [.expire p.1 (ttl + reverseIndexGap)]
                 else []))
            pipe0)
      | _, _ => pure pipe0
    pure (execPipe now pipe st)
  match attempt with
  | .ok st' => st'
  | .error _ => st

/-- Model of one call of the decorator `wrapper` (cache.py:289-332) against
a `MemoryBackend` with caching enabled: backend lookup, truthiness check of
the cached bytes, then either a hit (underlying function not invoked) or a
miss followed by the write path. The returned `Bool` records whether the
underlying function was invoked. -/
def wrapperCall (key : String) (ttl : Int) (valS : String)
    (entity : Option String) (resultTruthy : Bool) (ids : List String)
    (now : Int) (st : MB) : Bool × MB :=
  match st.get now key with
  | (some c, st1) =>
    if c ≠ "" then (false, st1)
    else (true, cacheWriteMB key ttl valS entity resultTruthy ids now st1)
  | (none, st1) => (true, cacheWriteMB key ttl valS entity resultTruthy ids now st1)

/-- Model of `EntityCache.invalidate_entity` (cache.py:741-808) against a
`MemoryBackend`: read the index members, then delete each member key and
the index key in one pipeline; an absent index returns `0` early. -/
def invalidate_entity (entity : String) (entityId : PVal) (now : Int)
    (st : MB) : Nat × MB :=
  let entityKey := "entity:" ++ entity ++ ":" ++ keyifyEntityId entityId
  let r := st.smembers now entityKey
  if r.1.isEmpty then (0, r.2)
  else
    let pipe := r.1.map PipeCmd.del ++ [PipeCmd.del entityKey]
    (r.1.length, execPipe now pipe r.2)

/-- Model of `EntityCache.invalidate_key` (cache.py:865-900) for a
function-name string: recompute the exact key via `get_cache_key`
(`_generate_key` on the name) and delete just that key via the backend. -/
def invalidate_key (h : String → String) (funcName : String)
    (args : List PVal) (kwargs : List (String × PVal))
    (st : MB) : Bool × MB :=
  let key := generateKey h funcName args kwargs
  ((true : Bool), (st.delete [key]).2)

/-! ### TTL reconciliation of entity indices (cache.py:544-560)

Against a backend whose `ttl` follows the contract (`-2` absent, `-1` no
expiry, else remaining seconds — the networked backend), the write path
reads the index's current TTL in a preliminary batch and then queues
`sadd` plus, conditionally, `expire`. -/

/-- State of one entity-index key in a contract-following backend: absent,
present without expiry, or expiring at an absolute instant. -/
inductive IdxState where
  | absent
  | noExpiry
  | expiresAt (e : Int)

/-- The backend `ttl` contract: `-2` for an absent (or already expired)
key, `-1` for a key with no expiry, else the remaining seconds. -/
def idxTtl (s : IdxState) (now : Int) : Int :=
  match s with
  | .absent => -2
  | .noExpiry => -1
  | .expiresAt e => if e ≤ now then -2 else e - now

/-- The reconciliation test of cache.py:555: queue an `expire` exactly when
`current_ttl < 0 or effective_ttl + self.reverse_index_ttl_gap >
current_ttl`. -/
def ttlReconcileFires (currentTtl effectiveTtl : Int) : Bool :=
  currentTtl < 0 || effectiveTtl + reverseIndexGap > currentTtl

/-- Effect of `sadd` on the index key: an absent or expired key is
recreated without expiry; a live key keeps its expiry. -/
def idxAfterSadd (s : IdxState) (now : Int) : IdxState :=
  match s with
  | .absent => .noExpiry
  | .noExpiry => .noExpiry
  | .expiresAt e => if e ≤ now then .noExpiry else .expiresAt e

/-- One writer on the shared entity index (cache.py:544-560): the TTL is
read first (preliminary pipeline), then `sadd`, then conditionally
`expire(entity_key, effective_ttl + gap)` which sets the absolute expiry
to `now + effective_ttl + gap`. -/
def writerStep (s : IdxState) (now t : Int) : IdxState :=
  let cur := idxTtl s now
  let s1 := idxAfterSadd s now
  if ttlReconcileFires cur t then .expiresAt (now + (t + reverseIndexGap)) else s1

/-- The absolute expiry instant of an index state, `none` when it never
expires or is absent. -/
def idxExpiry : IdxState → Option Int
  | .absent => none
  | .noExpiry => none
  | .expiresAt e => some e

/-! ### Value-level read/write path (`wrapper`, cache.py:289-332)

The value returned to the caller, with each failure source explicit:
the backend `get` and the deserializer may raise (`Except`), the cached
bytes may be falsy, the underlying function may raise, and the write path
may raise (caught inside `_cache`). -/

/-- The miss branch of `wrapper`: the underlying function's exception
propagates unchanged; on success the write is attempted and any write
failure is swallowed (`_cache` catches every exception), the fresh value
is returned either way. -/
def missPath {V σ : Type} (fnRes : Except String V)
    (write : V → Except String σ) (st0 : σ) : Except String (V × σ) :=
  match fnRes with
  | .error e => .error e
  | .ok v =>
    match write v with
    | .ok st' => .ok (v, st')
    | .error _ => .ok (v, st0)

/-- Model of the full `wrapper` body (cache.py:307-332) at the value
level: a backend `get` failure and a deserialization failure both fall
through to the miss branch; truthy cached bytes that deserialize return
the hit without touching the underlying function. -/
def wrapperFull {V σ : Type} (getRes : Except String (Option String))
    (deser : String → Except String V) (fnRes : Except String V)
    (write : V → Except String σ) (st0 : σ) : Except String (V × σ) :=
  match getRes with
  | .ok (some c) =>
    if c ≠ "" then
      match deser c with
      | .ok v => .ok (v, st0)
      | .error _ => missPath fnRes write st0
    else missPath fnRes write st0
  | .ok none => missPath fnRes write st0
  | .error _ => missPath fnRes write st0

/-! ### Association-list lemmas -/

theorem alGet_alDel_self {β : Type} (l : List (String × β)) (k : String) :
    alGet (alDel l k) k = none := by
  induction l with
  | nil => simp [alDel, alGet]
  | cons kv rest ih =>
    obtain ⟨k0, v0⟩ := kv
    by_cases h0 : k0 = k
    · simp [alDel, h0, ih]
    · simp [alDel, alGet, h0, ih]

theorem alGet_alDel_ne {β : Type} (l : List (String × β)) {k k' : String}
    (h : k' ≠ k) : alGet (alDel l k) k' = alGet l k' := by
  induction l with
  | nil => simp [alDel]
  | cons kv rest ih =>
    obtain ⟨k0, v0⟩ := kv
    by_cases h0 : k0 = k
    · subst h0
      rw [alDel, if_pos rfl, ih, alGet, if_neg (fun hh => h hh.symm)]
    · rw [alDel, if_neg h0, alGet, alGet]
      by_cases hk0 : k0 = k'
      · rw [if_pos hk0, if_pos hk0]
      · rw [if_neg hk0, if_neg hk0, ih]

theorem alGet_alSet_self {β : Type} (l : List (String × β)) (k : String) (v : β) :
    alGet (alSet l k v) k = some v := by
  induction l with
  | nil => simp [alSet, alGet]
  | cons kv rest ih =>
    obtain ⟨k0, v0⟩ := kv
    by_cases h0 : k0 = k
    · simp [alSet, h0, alGet]
    · simp [alSet, alGet, h0, ih]

theorem alGet_alSet_ne {β : Type} (l : List (String × β)) {k k' : String}
    (v : β) (h : k' ≠ k) : alGet (alSet l k v) k' = alGet l k' := by
  induction l with
  | nil =>
    rw [alSet, alGet, alGet, if_neg (fun hh : k = k' => h hh.symm)]
    rfl
  | cons kv rest ih =>
    obtain ⟨k0, v0⟩ := kv
    by_cases h0 : k0 = k
    · subst h0
      rw [alSet, if_pos rfl, alGet, alGet, if_neg (fun hh : k0 = k' => h hh.symm),
        if_neg (fun hh : k0 = k' => h hh.symm)]
    · rw [alSet, if_neg h0, alGet, alGet]
      by_cases hk0 : k0 = k'
      · rw [if_pos hk0, if_pos hk0]
      · rw [if_neg hk0, if_neg hk0, ih]

/-! ### Memory-backend state lemmas -/

theorem MB.checkExpiry_kp (st : MB) (now : Int) (pk : String) :
    (st.checkExpiry now pk).kp = st.kp := by
  unfold MB.checkExpiry
  rcases alGet st.expires pk with _ | e
  · rfl
  · dsimp only
    split_ifs <;> rfl

theorem MB.deleteOne_kp (st : MB) (k : String) : (st.deleteOne k).2.kp = st.kp := rfl

theorem MB.delete_go (ks : List String) : ∀ (st : MB) (a : Nat),
    List.foldl (fun acc k => (acc.1 + (acc.2.deleteOne k).1, (acc.2.deleteOne k).2))
        (a, st) ks
      = (a + (st.delete ks).1, (st.delete ks).2) := by
  induction ks with
  | nil =>
    intro st a
    simp [MB.delete]
  | cons k rest ih =>
    intro st a
    rw [MB.delete, List.foldl_cons, List.foldl_cons]
    dsimp only
    rw [ih, ih]
    rw [Nat.zero_add, Nat.add_assoc]

theorem MB.delete_cons (st : MB) (k : String) (ks : List String) :
    st.delete (k :: ks) =
      ((st.deleteOne k).1 + ((st.deleteOne k).2.delete ks).1,
        ((st.deleteOne k).2.delete ks).2) := by
  rw [MB.delete, List.foldl_cons]
  dsimp only
  rw [MB.delete_go]
  rw [Nat.zero_add]

theorem MB.delete_kp (st : MB) (ks : List String) : (st.delete ks).2.kp = st.kp := by
  induction ks generalizing st with
  | nil => rfl
  | cons k rest ih =>
    rw [MB.delete_cons]
    exact (ih (st.deleteOne k).2).trans rfl

theorem MB.deleteOne_data (st : MB) (k k' : String) :
    alGet (st.deleteOne k).2.data k' =
      if k' = st.kp ++ k then none else alGet st.data k' := by
  rw [MB.deleteOne]
  dsimp only [MB.prefixedKey]
  split_ifs with h
  · rw [h, alGet_alDel_self]
  · rw [alGet_alDel_ne _ h]

theorem MB.deleteOne_sets (st : MB) (k k' : String) :
    alGet (st.deleteOne k).2.sets k' =
      if k' = st.kp ++ k then none else alGet st.sets k' := by
  rw [MB.deleteOne]
  dsimp only [MB.prefixedKey]
  split_ifs with h
  · rw [h, alGet_alDel_self]
  · rw [alGet_alDel_ne _ h]

theorem MB.deleteOne_expires (st : MB) (k k' : String) :
    alGet (st.deleteOne k).2.expires k' =
      if k' = st.kp ++ k then none else alGet st.expires k' := by
  rw [MB.deleteOne]
  dsimp only [MB.prefixedKey]
  split_ifs with h
  · rw [h, alGet_alDel_self]
  · rw [alGet_alDel_ne _ h]

theorem MB.delete_data_other (ks : List String) : ∀ (st : MB) (k' : String),
    (∀ k ∈ ks, k' ≠ st.kp ++ k) →
    alGet (st.delete ks).2.data k' = alGet st.data k' := by
  induction ks with
  | nil => intro st k' _; rfl
  | cons k rest ih =>
    intro st k' hk
    rw [MB.delete_cons]
    dsimp only
    rw [ih (st.deleteOne k).2 k' (fun k2 hk2 => hk k2 (List.mem_cons_of_mem _ hk2)),
      MB.deleteOne_data, if_neg (hk k (List.mem_cons_self _ _))]

theorem MB.delete_sets_other (ks : List String) : ∀ (st : MB) (k' : String),
    (∀ k ∈ ks, k' ≠ st.kp ++ k) →
    alGet (st.delete ks).2.sets k' = alGet st.sets k' := by
  induction ks with
  | nil => intro st k' _; rfl
  | cons k rest ih =>
    intro st k' hk
    rw [MB.delete_cons]
    dsimp only
    rw [ih (st.deleteOne k).2 k' (fun k2 hk2 => hk k2 (List.mem_cons_of_mem _ hk2)),
      MB.deleteOne_sets, if_neg (hk k (List.mem_cons_self _ _))]

theorem MB.delete_data_none (ks : List String) : ∀ (st : MB) (pk : String),
    alGet st.data pk = none → alGet (st.delete ks).2.data pk = none := by
  induction ks with
  | nil => intro st pk h; exact h
  | cons k rest ih =>
    intro st pk h
    rw [MB.delete_cons]
    dsimp only
    refine ih _ _ ?_
    rw [MB.deleteOne_data]
    split_ifs with hp
    · rfl
    · exact h

theorem MB.delete_sets_none (ks : List String) : ∀ (st : MB) (pk : String),
    alGet st.sets pk = none → alGet (st.delete ks).2.sets pk = none := by
  induction ks with
  | nil => intro st pk h; exact h
  | cons k rest ih =>
    intro st pk h
    rw [MB.delete_cons]
    dsimp only
    refine ih _ _ ?_
    rw [MB.deleteOne_sets]
    split_ifs with hp
    · rfl
    · exact h

theorem MB.delete_expires_none (ks : List String) : ∀ (st : MB) (pk : String),
    alGet st.expires pk = none → alGet (st.delete ks).2.expires pk = none := by
  induction ks with
  | nil => intro st pk h; exact h
  | cons k rest ih =>
    intro st pk h
    rw [MB.delete_cons]
    dsimp only
    refine ih _ _ ?_
    rw [MB.deleteOne_expires]
    split_ifs with hp
    · rfl
    · exact h

theorem MB.delete_removes (ks : List String) : ∀ (st : MB) (k : String), k ∈ ks →
    alGet (st.delete ks).2.data (st.kp ++ k) = none ∧
    alGet (st.delete ks).2.sets (st.kp ++ k) = none ∧
    alGet (st.delete ks).2.expires (st.kp ++ k) = none := by
  induction ks with
  | nil => intro st k h; exact absurd h (List.not_mem_nil k)
  | cons k0 rest ih =>
    intro st k hmem
    rw [MB.delete_cons]
    dsimp only
    rcases List.mem_cons.mp hmem with heq | hrest
    · subst heq
      refine ⟨MB.delete_data_none _ _ _ ?_, MB.delete_sets_none _ _ _ ?_,
        MB.delete_expires_none _ _ _ ?_⟩
      · rw [MB.deleteOne_data, if_pos rfl]
      · rw [MB.deleteOne_sets, if_pos rfl]
      · rw [MB.deleteOne_expires, if_pos rfl]
    · exact ih (st.deleteOne k0).2 k hrest

theorem MB.delete_count (ks : List String) : ∀ (st : MB),
    (ks.map (fun k => st.kp ++ k)).Nodup →
    (st.delete ks).1 =
      (ks.filter (fun k => (alGet st.data (st.kp ++ k)).isSome)).length := by
  induction ks with
  | nil => intro st _; rfl
  | cons k rest ih =>
    intro st hnd
    rw [List.map_cons, List.nodup_cons] at hnd
    rw [MB.delete_cons]
    dsimp only
    rw [ih (st.deleteOne k).2 hnd.2]
    simp only [MB.deleteOne_kp]
    have hcongr : ∀ k2 ∈ rest,
        ((alGet (st.deleteOne k).2.data (st.kp ++ k2)).isSome
          = (alGet st.data (st.kp ++ k2)).isSome) := by
      intro k2 hk2
      rw [MB.deleteOne_data, if_neg]
      intro hcontra
      apply hnd.1
      rw [← hcontra]
      exact List.mem_map_of_mem _ hk2
    rw [List.filter_congr hcongr, List.filter_cons]
    rw [MB.deleteOne]
    dsimp only [MB.prefixedKey]
    split_ifs with h
    · rw [List.length_cons]
      omega
    · rw [Nat.zero_add]

theorem execPipe_append (now : Int) (c1 c2 : List PipeCmd) (st : MB) :
    execPipe now (c1 ++ c2) st = execPipe now c2 (execPipe now c1 st) := by
  rw [execPipe, execPipe, execPipe, List.foldl_append]

theorem execPipe_dels (now : Int) (ms : List String) : ∀ (st : MB),
    execPipe now (ms.map PipeCmd.del) st = (st.delete ms).2 := by
  induction ms with
  | nil => intro st; rfl
  | cons m rest ih =>
    intro st
    rw [List.map_cons, execPipe, List.foldl_cons]
    dsimp only
    rw [← execPipe, ih, MB.delete_cons]

theorem MB.checkExpiry_of_no_expiry (st : MB) (now : Int) (pk : String)
    (h : alGet st.expires pk = none) : st.checkExpiry now pk = st := by
  unfold MB.checkExpiry
  rw [h]

theorem MB.smembers_kp (st : MB) (now : Int) (k : String) :
    (st.smembers now k).2.kp = st.kp := by
  rw [MB.smembers]
  exact MB.checkExpiry_kp st now (st.prefixedKey k)

/-! ### TTL reconciliation lemmas -/

theorem writerStep_expiresAt (now t e : Int) :
    writerStep (.expiresAt e) now t =
      if e ≤ now ∨ e - now < t + reverseIndexGap then .expiresAt (now + (t + reverseIndexGap))
      else .expiresAt e := by
  rw [writerStep]
  simp only [idxTtl, idxAfterSadd, ttlReconcileFires, reverseIndexGap]
  by_cases he : e ≤ now
  · simp only [he, if_true, ite_true, true_or, if_pos]
    norm_num
  · simp only [he, ite_false, if_false, false_or]
    by_cases hf : e - now < t + 300
    · simp only [hf, ite_true]
      rw [if_pos]
      simp only [Bool.or_eq_true, decide_eq_true_eq]
      exact Or.inr trivial
    · simp only [hf, ite_false]
      rw [if_neg]
      simp only [Bool.or_eq_true, decide_eq_true_eq, not_or, not_lt]
      exact ⟨by omega, not_false⟩

theorem writerStep_absent (now t : Int) :
    writerStep .absent now t = .expiresAt (now + (t + reverseIndexGap)) := by
  rw [writerStep]
  simp only [idxTtl, idxAfterSadd, ttlReconcileFires, reverseIndexGap]
  rw [if_pos]
  simp only [Bool.or_eq_true, decide_eq_true_eq]
  left
  norm_num

theorem writerStep_live (now x t : Int) (hx : 0 ≤ x) :
    writerStep (.expiresAt (now + (x + reverseIndexGap))) now t
      = .expiresAt (now + (max x t + reverseIndexGap)) := by
  rw [writerStep_expiresAt]
  simp only [reverseIndexGap]
  split_ifs with h
  · congr 1
    rcases h with h | h <;> omega
  · rw [not_or, not_lt, not_le] at h
    congr 1
    omega

theorem writerStep_foldl (now : Int) (ts : List Int) : ∀ (x : Int), 0 ≤ x →
    (∀ u ∈ ts, 0 ≤ u) →
    List.foldl (fun s u => writerStep s now u) (.expiresAt (now + (x + reverseIndexGap))) ts
      = .expiresAt (now + (List.foldl max x ts + reverseIndexGap)) := by
  induction ts with
  | nil => intro x _ _; rfl
  | cons u rest ih =>
    intro x hx hall
    rw [List.foldl_cons, List.foldl_cons,
      writerStep_live now x u hx]
    exact ih (max x u) (le_trans hx (le_max_left x u))
      (fun v hv => hall v (List.mem_cons_of_mem _ hv))

theorem le_foldl_max : ∀ (rest : List Int) (x t : Int),
    (t ≤ x ∨ t ∈ rest) → t ≤ List.foldl max x rest
  | [], x, t, h => by
    rcases h with h | h
    · exact h
    · simp at h
  | u :: rest, x, t, h => by
    rcases h with h | h
    · exact le_foldl_max rest (max x u) t (Or.inl (le_trans h (le_max_left x u)))
    · rcases List.mem_cons.mp h with rfl | h2
      · exact le_foldl_max rest (max x t) t (Or.inl (le_max_right x t))
      · exact le_foldl_max rest (max x u) t (Or.inr h2)

/-- Modelled from the spec: `timeToLive(key) -> seconds|-2 (absent)|-1 (no
expiry)`; `MemoryBackend` has no `ttl` implementation of its own (only the
raising base-class method), so the contract the spec and base class demand
is modelled here for comparison. -/
def timeToLiveSpec (st : MB) (now : Int) (k : String) : Int :=
  let pk := st.prefixedKey k
  let st1 := st.checkExpiry now pk
  if (alGet st1.data pk).isSome || (alGet st1.sets pk).isSome then
    match alGet st1.expires pk with
    | some e => e - now
    | none => -1
  else -2

/-! ### Claim theorems -/

/-- C2: the in-process map-based backend is claimed to implement the
backend contract's `timeToLive`, returning remaining seconds, `-2` for an
absent key and `-1` for a key with no expiry. The code does not:
`MemoryBackend` never overrides `CacheBackend.ttl`, so every `ttl` call —
including the write path's batched TTL read of entity-index keys — raises
`NotImplementedError`, while the contract (modelled from the spec as
`timeToLiveSpec`) would return `-2` on an absent key. -/
theorem memory_backend_ttl_raises :
    (∀ (k : String) (st : MB), mbTtl k st = .error "Backend must implement ttl()")
    ∧ mbTtl "entity:user:1" ⟨"cache:", [], [], []⟩
        = .error "Backend must implement ttl()"
    ∧ timeToLiveSpec ⟨"cache:", [], [], []⟩ 0 "entity:user:1" = -2 := by
  refine ⟨fun _ _ => rfl, rfl, ?_⟩
  decide

/-- C4: the write path's TTL reconciliation of an entity-index key is a
high-water mark. (1) An `expire` to `ttl + reverseIndexGap` is queued
exactly when the index's current TTL is negative or the candidate exceeds
it (cache.py:555). (2) A write never lowers an existing absolute expiry.
(3) For any sequence of writers sharing one index (all at time `now`,
nonnegative TTLs), the final expiry is at least `now + t + gap` for every
writer TTL `t` in the sequence — a later short-TTL writer never lowers the
expiry established by an earlier long-TTL writer. -/
theorem ttl_reconciliation_high_water_mark :
    (∀ cur t : Int, ttlReconcileFires cur t = true ↔
        (cur < 0 ∨ t + reverseIndexGap > cur))
    ∧ (∀ now t e : Int, 0 ≤ t →
        ∃ e2, writerStep (.expiresAt e) now t = .expiresAt e2 ∧ e ≤ e2)
    ∧ (∀ (now : Int) (ts : List Int), (∀ u ∈ ts, 0 ≤ u) →
        ∀ t ∈ ts, ∃ e2,
          List.foldl (fun s u => writerStep s now u) IdxState.absent ts
              = .expiresAt e2
            ∧ now + (t + reverseIndexGap) ≤ e2) := by
  refine ⟨?_, ?_, ?_⟩
  · intro cur t
    rw [ttlReconcileFires]
    simp only [Bool.or_eq_true, decide_eq_true_eq]
  · intro now t e ht
    rw [writerStep_expiresAt]
    split_ifs with h
    · refine ⟨now + (t + reverseIndexGap), rfl, ?_⟩
      simp only [reverseIndexGap] at h ⊢
      rcases h with h | h <;> omega
    · exact ⟨e, rfl, le_refl e⟩
  · intro now ts hall t ht
    cases ts with
    | nil => exact absurd ht (List.not_mem_nil t)
    | cons t0 rest =>
      rw [List.foldl_cons, writerStep_absent]
      rw [writerStep_foldl now rest t0 (hall t0 (List.mem_cons_self _ _))
        (fun v hv => hall v (List.mem_cons_of_mem _ hv))]
      refine ⟨now + (List.foldl max t0 rest + reverseIndexGap), rfl, ?_⟩
      have : t ≤ List.foldl max t0 rest := by
        rcases List.mem_cons.mp ht with rfl | h2
        · exact le_foldl_max rest t t (Or.inl (le_refl t))
        · exact le_foldl_max rest t0 t (Or.inr h2)
      omega

/-- C4 witness: the spec's scenario — writers with TTLs 10, 90, 5 at time
0 share one index; the final expiry is at least `0 + (90 + gap)`, so the
last short-TTL writer did not lower it. -/
theorem ttl_reconciliation_high_water_mark_witness :
    (∀ u ∈ [(10 : Int), 90, 5], 0 ≤ u) ∧ (90 : Int) ∈ [(10 : Int), 90, 5] ∧
    ∃ e2, List.foldl (fun s u => writerStep s 0 u) IdxState.absent [10, 90, 5]
        = .expiresAt e2 ∧ 0 + (90 + reverseIndexGap) ≤ e2 :=
  ⟨by decide, by decide,
    ttl_reconciliation_high_water_mark.2.2 0 [10, 90, 5] (by decide) 90 (by decide)⟩

/-- C1: at-most-one-recompute-per-key-per-TTL is claimed for every
configuration, including a function decorated with an entity type and a
non-empty result over the in-process memory backend. The code violates it
there: `MemoryBackend` lacks `ttl`, so the write path's TTL pipeline raises
`NotImplementedError`, `_cache` swallows the exception before the main
pipeline runs, nothing is stored, and the state is unchanged — hence every
later call within the TTL window invokes the underlying function again
(two calls, two invocations). Without entity tracking the same wrapper
caches correctly (second call is a hit), isolating the defect. -/
theorem memory_entity_caching_recomputes_every_call :
    ((wrapperCall "cache:tests.get_user:k1" 300 "v1" (some "user") true ["1"] 0
        ⟨"cache:", [], [], []⟩).1 = true)
    ∧ ((wrapperCall "cache:tests.get_user:k1" 300 "v1" (some "user") true ["1"] 0
        ⟨"cache:", [], [], []⟩).2 = ⟨"cache:", [], [], []⟩)
    ∧ ((wrapperCall "cache:tests.get_user:k1" 300 "v1" (some "user") true ["1"] 0
        (wrapperCall "cache:tests.get_user:k1" 300 "v1" (some "user") true ["1"] 0
          ⟨"cache:", [], [], []⟩).2).1 = true)
    ∧ ((wrapperCall "cache:tests.get_user:k1" 300 "v1" none true [] 0
        ⟨"cache:", [], [], []⟩).1 = true)
    ∧ ((wrapperCall "cache:tests.get_user:k1" 300 "v1" none true [] 0
        (wrapperCall "cache:tests.get_user:k1" 300 "v1" none true [] 0
          ⟨"cache:", [], [], []⟩).2).1 = false) := by
  decide

theorem missPath_map_fst {V σ : Type} (fnRes : Except String V)
    (w : V → Except String σ) (st0 : σ) :
    Except.map Prod.fst (missPath fnRes w st0) = Except.map id fnRes := by
  cases fnRes with
  | error e => rfl
  | ok v =>
    rw [missPath]
    rcases w v with _ | st' <;> rfl

/-- C7: on every call of a wrapped function, a backend `get` exception and
a deserialization exception are each treated as a miss (the underlying
function runs and its value is returned, parts 1-2); an exception of the
underlying function propagates unchanged in every miss-shaped situation
(parts 3a-3d); and the value returned to the caller does not depend on the
write path's outcome at all (part 4). -/
theorem wrapper_error_propagation :
    (∀ (V σ : Type) (err : String) (deser : String → Except String V) (v : V)
        (write : V → Except String σ) (st0 : σ),
      ∃ stx, wrapperFull (.error err) deser (.ok v) write st0 = .ok (v, stx))
    ∧ (∀ (V σ : Type) (c d : String) (deser : String → Except String V) (v : V)
        (write : V → Except String σ) (st0 : σ),
      c ≠ "" → deser c = .error d →
      ∃ stx, wrapperFull (.ok (some c)) deser (.ok v) write st0 = .ok (v, stx))
    ∧ (∀ (V σ : Type) (err e : String) (deser : String → Except String V)
        (write : V → Except String σ) (st0 : σ),
      wrapperFull (V := V) (.error err) deser (.error e) write st0 = .error e)
    ∧ (∀ (V σ : Type) (e : String) (deser : String → Except String V)
        (write : V → Except String σ) (st0 : σ),
      wrapperFull (V := V) (.ok none) deser (.error e) write st0 = .error e)
    ∧ (∀ (V σ : Type) (c d e : String) (deser : String → Except String V)
        (write : V → Except String σ) (st0 : σ),
      c ≠ "" → deser c = .error d →
      wrapperFull (V := V) (.ok (some c)) deser (.error e) write st0 = .error e)
    ∧ (∀ (V σ : Type) (e : String) (deser : String → Except String V)
        (write : V → Except String σ) (st0 : σ),
      wrapperFull (V := V) (.ok (some "")) deser (.error e) write st0 = .error e)
    ∧ (∀ (V σ σ2 : Type) (getRes : Except String (Option String))
        (deser : String → Except String V) (fnRes : Except String V)
        (write : V → Except String σ) (write2 : V → Except String σ2)
        (st0 : σ) (st02 : σ2),
      Except.map Prod.fst (wrapperFull getRes deser fnRes write st0)
        = Except.map Prod.fst (wrapperFull getRes deser fnRes write2 st02)) := by
  refine ⟨?_, ?_, ?_, ?_, ?_, ?_, ?_⟩
  · intro V σ err deser v write st0
    rw [wrapperFull, missPath]
    rcases write v with _ | st' <;> exact ⟨_, rfl⟩
  · intro V σ c d deser v write st0 hc hd
    rw [wrapperFull, if_pos hc, hd, missPath]
    rcases write v with _ | st' <;> exact ⟨_, rfl⟩
  · intro V σ err e deser write st0
    rfl
  · intro V σ e deser write st0
    rfl
  · intro V σ c d e deser write st0 hc hd
    rw [wrapperFull, if_pos hc, hd]
    rfl
  · intro V σ e deser write st0
    rw [wrapperFull, if_neg (by simp)]
    rfl
  · intro V σ σ2 getRes deser fnRes write write2 st0 st02
    rcases getRes with _ | oc
    · rw [wrapperFull, wrapperFull, missPath_map_fst, missPath_map_fst]
    · rcases oc with _ | c
      · rw [wrapperFull, wrapperFull, missPath_map_fst, missPath_map_fst]
      · rw [wrapperFull, wrapperFull]
        split_ifs with hc
        · rcases deser c with _ | v
          · rw [missPath_map_fst, missPath_map_fst]
          · rfl
        · rw [missPath_map_fst, missPath_map_fst]

/-- C7 witness: concrete instances — a failing backend `get` with a
successful underlying call returns the fresh value; a failing underlying
call propagates its error; and a failing write leaves the returned value
equal to that of a successful write. -/
theorem wrapper_error_propagation_witness :
    (∃ stx, wrapperFull (V := Nat) (σ := Nat) (.error "conn")
        (fun _ => .error "bad") (.ok 7) (fun _ => .error "w") 0 = .ok (7, stx))
    ∧ (("x" : String) ≠ "" ∧
        (fun _ : String => (Except.error "bad" : Except String Nat)) "x"
          = (Except.error "bad" : Except String Nat))
    ∧ wrapperFull (V := Nat) (σ := Nat) (.ok (some "x"))
        (fun _ => .error "bad") (.error "boom") (fun _ => .error "w") 0 = .error "boom"
    ∧ Except.map Prod.fst (wrapperFull (V := Nat) (σ := Nat) (.ok none)
        (fun _ => .error "bad") (.ok 7) (fun _ => .error "w") 0)
      = Except.map Prod.fst (wrapperFull (V := Nat) (σ := Nat) (.ok none)
        (fun _ => .error "bad") (.ok 7) (fun n => .ok (n + 1)) 5) :=
  ⟨wrapper_error_propagation.1 Nat Nat "conn" (fun _ => .error "bad") 7
      (fun _ => .error "w") 0,
    ⟨by decide, rfl⟩,
    wrapper_error_propagation.2.2.2.2.1 Nat Nat "x" "bad" "boom"
      (fun _ => .error "bad") (fun _ => .error "w") 0 (by decide) rfl,
    wrapper_error_propagation.2.2.2.2.2.2 Nat Nat Nat (.ok none)
      (fun _ => .error "bad") (.ok 7) (fun _ => .error "w") (fun n => .ok (n + 1)) 0 5⟩

/-- C9: `MemoryBackend.delete` removes every given key from the scalar
store, the set store and the expiry table, yet counts only keys that were
present in the scalar store — a key existing only as a set contributes 0. -/
theorem memory_delete_counts_only_scalar_keys :
    ∀ (st : MB) (ks : List String), (ks.map (fun k => st.kp ++ k)).Nodup →
      (∀ k ∈ ks,
        alGet (st.delete ks).2.data (st.kp ++ k) = none ∧
        alGet (st.delete ks).2.sets (st.kp ++ k) = none ∧
        alGet (st.delete ks).2.expires (st.kp ++ k) = none)
      ∧ (st.delete ks).1
          = (ks.filter (fun k => (alGet st.data (st.kp ++ k)).isSome)).length := by
  intro st ks hnd
  exact ⟨fun k hk => MB.delete_removes ks st k hk, MB.delete_count ks st hnd⟩

/-- C9 witness: deleting a set-only key (`e`, an entity reverse index) and
a scalar key (`a`) removes both, but the returned count is 1 — the
set-only key contributed 0. -/
theorem memory_delete_counts_only_scalar_keys_witness :
    ((["e", "a"].map (fun k => "cache:" ++ k)).Nodup)
    ∧ ((MB.delete ⟨"cache:", [("cache:a", "v")], [("cache:e", ["m"])], []⟩
        ["e", "a"]).1 = 1)
    ∧ (∀ k ∈ ["e", "a"],
        alGet (MB.delete ⟨"cache:", [("cache:a", "v")], [("cache:e", ["m"])], []⟩
          ["e", "a"]).2.data ("cache:" ++ k) = none ∧
        alGet (MB.delete ⟨"cache:", [("cache:a", "v")], [("cache:e", ["m"])], []⟩
          ["e", "a"]).2.sets ("cache:" ++ k) = none ∧
        alGet (MB.delete ⟨"cache:", [("cache:a", "v")], [("cache:e", ["m"])], []⟩
          ["e", "a"]).2.expires ("cache:" ++ k) = none) :=
  ⟨by decide, by decide,
    (memory_delete_counts_only_scalar_keys
      ⟨"cache:", [("cache:a", "v")], [("cache:e", ["m"])], []⟩
      ["e", "a"] (by decide)).1⟩

theorem str_append_left_cancel {a b c : String} (h : a ++ b = a ++ c) : b = c := by
  have hd := congrArg String.data h
  rw [String.data_append, String.data_append] at hd
  exact String.ext (List.append_cancel_left hd)

theorem cache_ne_entity_prefix (x y : String) : "cache:" ++ x ≠ "entity:" ++ y := by
  intro h
  have hd : (("cache:" ++ x).data).head? = (("entity:" ++ y).data).head? := by rw [h]
  rw [String.data_append, String.data_append] at hd
  have h1 : (("cache:").data ++ x.data).head? = some (Char.ofNat 99) := rfl
  have h2 : (("entity:").data ++ y.data).head? = some (Char.ofNat 101) := rfl
  rw [h1, h2] at hd
  exact absurd hd (by decide)

theorem generateKey_starts (h : String → String) (p : String) (args : List PVal)
    (kwargs : List (String × PVal)) :
    ∃ rest, generateKey h p args kwargs = "cache:" ++ rest := by
  rw [generateKey]
  exact ⟨_, by rw [String.append_assoc, String.append_assoc]⟩

/-- C10: `invalidate_key` deletes only the computed cache key: the scalar
entry of that one key is removed, scalar entries of every other key and
the set entry of every other key are untouched, and no entity reverse
index (`entity:...` keys, distinct from the `cache:...`-shaped computed
key) is ever the deleted key — so a deleted cache key remains a member of
any entity index that referenced it. -/
theorem invalidate_key_frame :
    ∀ (h : String → String) (fn : String) (args : List PVal)
      (kwargs : List (String × PVal)) (st : MB),
      (invalidate_key h fn args kwargs st).1 = true
      ∧ alGet (invalidate_key h fn args kwargs st).2.data
          (st.kp ++ generateKey h fn args kwargs) = none
      ∧ (∀ k2, k2 ≠ st.kp ++ generateKey h fn args kwargs →
          alGet (invalidate_key h fn args kwargs st).2.sets k2 = alGet st.sets k2)
      ∧ (∀ k2, k2 ≠ st.kp ++ generateKey h fn args kwargs →
          alGet (invalidate_key h fn args kwargs st).2.data k2 = alGet st.data k2)
      ∧ (∀ ename, st.kp ++ ("entity:" ++ ename)
          ≠ st.kp ++ generateKey h fn args kwargs) := by
  intro h fn args kwargs st
  refine ⟨rfl, ?_, ?_, ?_, ?_⟩
  · exact (MB.delete_removes [generateKey h fn args kwargs] st _
      (List.mem_singleton_self _)).1
  · intro k2 hk2
    exact MB.delete_sets_other [generateKey h fn args kwargs] st k2
      (by intro k hk; rw [List.mem_singleton.mp hk]; exact hk2)
  · intro k2 hk2
    exact MB.delete_data_other [generateKey h fn args kwargs] st k2
      (by intro k hk; rw [List.mem_singleton.mp hk]; exact hk2)
  · intro ename hcontra
    have hkey := str_append_left_cancel hcontra
    obtain ⟨rest, hrest⟩ := generateKey_starts h fn args kwargs
    rw [hrest] at hkey
    exact cache_ne_entity_prefix rest ename hkey.symm

/-- C10 witness: deleting the computed key for a concrete call leaves the
entity index `entity:user:1` (which lists that cache key as a member)
unchanged. -/
theorem invalidate_key_frame_witness :
    ("k2x" : String) ≠ "" ++ generateKey (fun s => s) "m.f" [] []
    ∧ alGet (invalidate_key (fun s => s) "m.f" [] []
        ⟨"", [(generateKey (fun s => s) "m.f" [] [], "v")],
          [("entity:user:1", [generateKey (fun s => s) "m.f" [] []])], []⟩).2.sets
        "k2x"
      = alGet (⟨"", [(generateKey (fun s => s) "m.f" [] [], "v")],
          [("entity:user:1", [generateKey (fun s => s) "m.f" [] []])], []⟩ : MB).sets
        "k2x" :=
  ⟨by decide,
    (invalidate_key_frame (fun s => s) "m.f" [] []
      ⟨"", [(generateKey (fun s => s) "m.f" [] [], "v")],
        [("entity:user:1", [generateKey (fun s => s) "m.f" [] []])], []⟩).2.2.1
      "k2x" (by decide)⟩

theorem invalidate_entity_eq (entity : String) (eid : PVal) (now : Int) (st : MB) :
    invalidate_entity entity eid now st =
      if (st.smembers now ("entity:" ++ entity ++ ":" ++ keyifyEntityId eid)).1.isEmpty
      then (0, (st.smembers now ("entity:" ++ entity ++ ":" ++ keyifyEntityId eid)).2)
      else ((st.smembers now ("entity:" ++ entity ++ ":" ++ keyifyEntityId eid)).1.length,
        ((((st.smembers now ("entity:" ++ entity ++ ":" ++ keyifyEntityId eid)).2.delete
            (st.smembers now ("entity:" ++ entity ++ ":" ++ keyifyEntityId eid)).1).2).deleteOne
          ("entity:" ++ entity ++ ":" ++ keyifyEntityId eid)).2) := by
  rw [invalidate_entity]
  dsimp only
  split_ifs with h
  · rfl
  · rw [execPipe_append, execPipe_dels]
    rfl

/-- C6: `invalidate_entity` reads the entity-index set's members, deletes
every member cache key individually plus the index key itself in one
pipeline batch, and returns the number of member cache keys; when the
index has no members it returns 0 early, touching nothing beyond the
expiry check (and exactly nothing when the index key has no pending
expiry). -/
theorem invalidate_entity_members_and_cleanup :
    ∀ (entity : String) (eid : PVal) (now : Int) (st : MB),
      (invalidate_entity entity eid now st).1
        = (st.smembers now ("entity:" ++ entity ++ ":" ++ keyifyEntityId eid)).1.length
      ∧ ((st.smembers now ("entity:" ++ entity ++ ":" ++ keyifyEntityId eid)).1 = [] →
          (invalidate_entity entity eid now st).2
            = (st.smembers now ("entity:" ++ entity ++ ":" ++ keyifyEntityId eid)).2)
      ∧ ((st.smembers now ("entity:" ++ entity ++ ":" ++ keyifyEntityId eid)).1 = [] →
          alGet st.expires (st.kp ++ ("entity:" ++ entity ++ ":" ++ keyifyEntityId eid))
              = none →
          (invalidate_entity entity eid now st).2 = st)
      ∧ (∀ m ∈ (st.smembers now ("entity:" ++ entity ++ ":" ++ keyifyEntityId eid)).1,
          alGet (invalidate_entity entity eid now st).2.data (st.kp ++ m) = none)
      ∧ ((st.smembers now ("entity:" ++ entity ++ ":" ++ keyifyEntityId eid)).1 ≠ [] →
          alGet (invalidate_entity entity eid now st).2.sets
            (st.kp ++ ("entity:" ++ entity ++ ":" ++ keyifyEntityId eid)) = none) := by
  intro entity eid now st
  rw [invalidate_entity_eq]
  by_cases hm :
      (st.smembers now ("entity:" ++ entity ++ ":" ++ keyifyEntityId eid)).1 = []
  · rw [if_pos (by rw [hm]; rfl)]
    refine ⟨by rw [hm]; rfl, fun _ => rfl, fun _ hexp => ?_, ?_, fun hne => absurd hm hne⟩
    · rw [MB.smembers]
      exact MB.checkExpiry_of_no_expiry st now _ hexp
    · intro m hmem
      rw [hm] at hmem
      exact absurd hmem (List.not_mem_nil m)
  · rw [if_neg (by
      intro hcon
      exact hm (List.isEmpty_iff.mp hcon))]
    have hkp2 :
        ((st.smembers now ("entity:" ++ entity ++ ":" ++ keyifyEntityId eid)).2.delete
          (st.smembers now ("entity:" ++ entity ++ ":" ++ keyifyEntityId eid)).1).2.kp
        = st.kp := by
      rw [MB.delete_kp, MB.smembers_kp]
    refine ⟨rfl, fun hc => absurd hc hm, fun hc => absurd hc hm, ?_, fun _ => ?_⟩
    · intro m hmem
      rw [MB.deleteOne_data, hkp2]
      split_ifs with hp
      · rfl
      · have := (MB.delete_removes
          (st.smembers now ("entity:" ++ entity ++ ":" ++ keyifyEntityId eid)).1
          (st.smembers now ("entity:" ++ entity ++ ":" ++ keyifyEntityId eid)).2
          m hmem).1
        rw [MB.smembers_kp] at this
        exact this
    · rw [MB.deleteOne_sets, hkp2, if_pos rfl]

/-- C6 witness: a concrete index `entity:user:1` with two member cache
keys — invalidation deletes the member `cache:f:h1` from the scalar store
and removes the index set itself. -/
theorem invalidate_entity_members_and_cleanup_witness :
    ((MB.mk "" [("cache:f:h1", "v1"), ("cache:f:h2", "v2")]
        [("entity:user:1", ["cache:f:h1", "cache:f:h2"])] []).smembers 0
        ("entity:" ++ "user" ++ ":" ++ keyifyEntityId (.int 1))).1 ≠ []
    ∧ "cache:f:h1" ∈ ((MB.mk "" [("cache:f:h1", "v1"), ("cache:f:h2", "v2")]
        [("entity:user:1", ["cache:f:h1", "cache:f:h2"])] []).smembers 0
        ("entity:" ++ "user" ++ ":" ++ keyifyEntityId (.int 1))).1
    ∧ alGet (invalidate_entity "user" (.int 1) 0
        (MB.mk "" [("cache:f:h1", "v1"), ("cache:f:h2", "v2")]
          [("entity:user:1", ["cache:f:h1", "cache:f:h2"])] [])).2.data
        ((MB.mk "" [("cache:f:h1", "v1"), ("cache:f:h2", "v2")]
          [("entity:user:1", ["cache:f:h1", "cache:f:h2"])] []).kp ++ "cache:f:h1")
      = none
    ∧ alGet (invalidate_entity "user" (.int 1) 0
        (MB.mk "" [("cache:f:h1", "v1"), ("cache:f:h2", "v2")]
          [("entity:user:1", ["cache:f:h1", "cache:f:h2"])] [])).2.sets
        ((MB.mk "" [("cache:f:h1", "v1"), ("cache:f:h2", "v2")]
          [("entity:user:1", ["cache:f:h1", "cache:f:h2"])] []).kp
          ++ ("entity:" ++ "user" ++ ":" ++ keyifyEntityId (.int 1)))
      = none :=
  ⟨by decide, by decide,
    (invalidate_entity_members_and_cleanup "user" (.int 1) 0
      (MB.mk "" [("cache:f:h1", "v1"), ("cache:f:h2", "v2")]
        [("entity:user:1", ["cache:f:h1", "cache:f:h2"])] [])).2.2.2.1
      "cache:f:h1" (by decide),
    (invalidate_entity_members_and_cleanup "user" (.int 1) 0
      (MB.mk "" [("cache:f:h1", "v1"), ("cache:f:h2", "v2")]
        [("entity:user:1", ["cache:f:h1", "cache:f:h2"])] [])).2.2.2.2
      (by decide)⟩

/-- C3 counterexample: for the composite spec `["a", "b"]` on an item that
has both fields, the code (`_first_result_from_extractors`) returns the
first rule's id `1` alone, whereas the claimed apply-every-rule semantics
(`perItemCompositeSpec`, modelled from the spec's words) would produce the
ordered composite `(1, 2)` — the two results differ. -/
theorem composite_id_key_counterexample :
    extract_entity_ids (.dict [("a", .int 1), ("b", .int 2)])
        (.many [.field "a", .field "b"]) true = .ok [.int 1]
    ∧ perItemCompositeSpec (.dict [("a", .int 1), ("b", .int 2)])
        [.field "a", .field "b"] = .ok (some (.seq [.int 1, .int 2]))
    ∧ (Except.ok [RVal.int 1] : Except ExErr (List RVal))
        ≠ .ok [.seq [.int 1, .int 2]] := by
  refine ⟨rfl, rfl, ?_⟩
  intro hcontra
  have h1 : [RVal.int 1] = [RVal.seq [.int 1, .int 2]] := by injection hcontra
  have h2 : RVal.int 1 = RVal.seq [.int 1, .int 2] := by injection h1
  injection h2

/-- C3 amended: when the id-extractor spec is a list of rules, the rules
are ordered fallbacks — per-item extraction returns the first rule's
produced, non-`None`, supported-type id and ignores the remaining rules;
no composite tuple is formed. -/
theorem extractor_list_first_success_wins :
    ∀ (item : RVal) (ex : Extractor) (rest : List Extractor) (failm : Bool)
      (v : RVal),
      parseItemId item ex = .ok (some v) → supportedId v = true →
      firstResultFromExtractors item (ex :: rest) failm = .ok (some v) := by
  intro item ex rest failm v hp hs
  rw [firstResultFromExtractors, hp]
  simp [hs]

/-- C3 amended witness: on the two-rule composite spec, the first field's
id `1` is produced and the second rule is ignored. -/
theorem extractor_list_first_success_wins_witness :
    parseItemId (.dict [("a", .int 1), ("b", .int 2)]) (.field "a")
      = .ok (some (.int 1))
    ∧ supportedId (.int 1) = true
    ∧ firstResultFromExtractors (.dict [("a", .int 1), ("b", .int 2)])
        [.field "a", .field "b"] true = .ok (some (.int 1)) :=
  ⟨rfl, rfl,
    extractor_list_first_success_wins (.dict [("a", .int 1), ("b", .int 2)])
      (.field "a") [.field "b"] true (.int 1) rfl rfl⟩

theorem generateKey_prefix_inj (h : String → String) (p1 p2 : String)
    (args : List PVal) (kwargs : List (String × PVal))
    (heq : generateKey h p1 args kwargs = generateKey h p2 args kwargs) :
    p1 = p2 := by
  simp only [generateKey] at heq
  have hd := congrArg String.data heq
  rw [String.data_append, String.data_append, String.data_append,
    String.data_append, String.data_append, String.data_append] at hd
  have h1 := List.append_cancel_right hd
  have h2 := List.append_cancel_right h1
  exact String.ext (List.append_cancel_left h2)

/-- C5: two differently-named functions configured with the same entity
type, scope `entity` and no explicit cache key produce the prefix
`entity:{entityType}` and hence the identical cache key on identical
normalized arguments; with scope `function` the prefix is
`{module}.{functionName}` and the same two functions produce different
keys even with identical entity type and arguments. -/
theorem entity_scope_shares_function_scope_isolates :
    ∀ (h : String → String) (f1 f2 : PyFunc) (e : String) (args : List PVal)
      (kwargs : List (String × PVal)),
      f1.attrCacheKey = none → f1.attrEntity = none → f1.attrScope = none →
      f2.attrCacheKey = none → f2.attrEntity = none → f2.attrScope = none →
      e ≠ "" →
      f1.module ++ "." ++ f1.name ≠ f2.module ++ "." ++ f2.name →
      construct_key h f1 none (some e) "entity" args kwargs
          = generateKey h ("entity:" ++ e) args kwargs
      ∧ construct_key h f1 none (some e) "entity" args kwargs
          = construct_key h f2 none (some e) "entity" args kwargs
      ∧ construct_key h f1 none (some e) "function" args kwargs
          ≠ construct_key h f2 none (some e) "function" args kwargs := by
  intro h f1 f2 e args kwargs h1c h1e h1s h2c h2e h2s he hne
  have key1 : ∀ (f : PyFunc), f.attrCacheKey = none → f.attrEntity = none →
      f.attrScope = none →
      construct_key h f none (some e) "entity" args kwargs
        = generateKey h ("entity:" ++ e) args kwargs := by
    intro f hc hee hs
    rw [construct_key, hc, hee, hs]
    simp [pyOrOpt, pyOrStr, truthyStr, he]
  have key2 : ∀ (f : PyFunc), f.attrCacheKey = none → f.attrEntity = none →
      f.attrScope = none →
      construct_key h f none (some e) "function" args kwargs
        = generateKey h (f.module ++ "." ++ f.name) args kwargs := by
    intro f hc hee hs
    rw [construct_key, hc, hee, hs]
    simp [pyOrOpt, pyOrStr, truthyStr]
  refine ⟨key1 f1 h1c h1e h1s,
    (key1 f1 h1c h1e h1s).trans (key1 f2 h2c h2e h2s).symm, ?_⟩
  rw [key2 f1 h1c h1e h1s, key2 f2 h2c h2e h2s]
  intro hcontra
  exact hne (generateKey_prefix_inj h _ _ args kwargs hcontra)

/-- C5 witness: `app.a.get_user` and `app.b.fetch_user`, both on entity
`user`, share one key under scope `entity` and have distinct keys under
scope `function`, at argument `1`. -/
theorem entity_scope_shares_function_scope_isolates_witness :
    ("user" : String) ≠ ""
    ∧ ("app.a" ++ "." ++ "get_user" : String) ≠ "app.b" ++ "." ++ "fetch_user"
    ∧ construct_key (fun s => s) ⟨"app.a", "get_user", none, none, none⟩ none
        (some "user") "entity" [.int 1] []
      = construct_key (fun s => s) ⟨"app.b", "fetch_user", none, none, none⟩ none
        (some "user") "entity" [.int 1] []
    ∧ construct_key (fun s => s) ⟨"app.a", "get_user", none, none, none⟩ none
        (some "user") "function" [.int 1] []
      ≠ construct_key (fun s => s) ⟨"app.b", "fetch_user", none, none, none⟩ none
        (some "user") "function" [.int 1] [] :=
  ⟨by decide, by decide,
    (entity_scope_shares_function_scope_isolates (fun s => s)
      ⟨"app.a", "get_user", none, none, none⟩
      ⟨"app.b", "fetch_user", none, none, none⟩ "user" [.int 1] []
      rfl rfl rfl rfl rfl rfl (by decide) (by decide)).2.1,
    (entity_scope_shares_function_scope_isolates (fun s => s)
      ⟨"app.a", "get_user", none, none, none⟩
      ⟨"app.b", "fetch_user", none, none, none⟩ "user" [.int 1] []
      rfl rfl rfl rfl rfl rfl (by decide) (by decide)).2.2⟩

/-- Strict key order on dict items, used to show sorted entry lists with
distinct keys are unique. -/
def entryLt (a b : String × PVal) : Prop := strCmp a.1 b.1 = Ordering.lt

instance : IsAntisymm (String × PVal) entryLt where
  antisymm a b h1 h2 := by
    exfalso
    rw [entryLt] at h1 h2
    rw [strCmp_swap a.1 b.1, h1] at h2
    exact absurd h2 (by simp [Ordering.swap])

theorem allComparable_iff {xs : List PVal} :
    allComparable xs = true ↔ ∀ a ∈ xs, ∀ b ∈ xs, pyComparable a b = true := by
  simp [allComparable, List.all_eq_true]

theorem allComparable_perm {xs ys : List PVal} (h : xs.Perm ys) :
    allComparable xs = allComparable ys := by
  have hiff : (allComparable xs = true) ↔ (allComparable ys = true) := by
    rw [allComparable_iff, allComparable_iff]
    constructor
    · intro H a ha b hb
      exact H a (h.mem_iff.mpr ha) b (h.mem_iff.mpr hb)
    · intro H a ha b hb
      exact H a (h.mem_iff.mp ha) b (h.mem_iff.mp hb)
  rcases hx : allComparable xs <;> rcases hy : allComparable ys
  · rfl
  · rw [hx, hy] at hiff
    exact absurd (hiff.mpr rfl) (by simp)
  · rw [hx, hy] at hiff
    exact absurd (hiff.mp rfl) (by simp)
  · rfl

theorem normalizeEntries_eq_map (es : List (String × PVal)) :
    normalizeEntries es = es.map (fun kv => (kv.1, normalizeValue kv.2)) := by
  induction es with
  | nil => rfl
  | cons kv rest ih =>
    obtain ⟨k, v⟩ := kv
    rw [normalizeEntries, ih, List.map_cons]

theorem sortEntriesByKey_canonical {es1 es2 : List (String × PVal)}
    (hperm : es1.Perm es2) (hnd : (es1.map Prod.fst).Nodup) :
    sortEntriesByKey es1 = sortEntriesByKey es2 := by
  have sortedLt : ∀ (es : List (String × PVal)), (es.map Prod.fst).Nodup →
      List.Sorted entryLt (sortEntriesByKey es) := by
    intro es hnde
    have hle : List.Sorted entryLe (sortEntriesByKey es) :=
      List.sorted_insertionSort entryLe es
    have hmap : (es.map Prod.fst).Perm ((sortEntriesByKey es).map Prod.fst) :=
      (List.Perm.map Prod.fst (List.perm_insertionSort entryLe es)).symm
    have hnd1 : ((sortEntriesByKey es).map Prod.fst).Nodup := hmap.nodup hnde
    have hpne : List.Pairwise (fun a b : String × PVal => a.1 ≠ b.1)
        (sortEntriesByKey es) := List.pairwise_map.mp hnd1
    refine (List.Pairwise.and hle hpne).imp ?_
    intro a b hab
    obtain ⟨hab1, hab2⟩ := hab
    rw [entryLt]
    rcases hc : strCmp a.1 b.1 with _ | _ | _
    · rfl
    · exact absurd (strCmp_eq_iff.mp hc) hab2
    · exact absurd hc hab1
  refine List.eq_of_perm_of_sorted (r := entryLt) ?_ (sortedLt es1 hnd)
    (sortedLt es2 ((hperm.map Prod.fst).nodup hnd))
  exact ((List.perm_insertionSort entryLe es1).trans hperm).trans
    (List.perm_insertionSort entryLe es2).symm

/-- C8: with `normalize_args=true`, (1) the cache key is invariant under
permutation of keyword-argument order; (2) for list, tuple and set values
whose elements are mutually Python-comparable, normalization sorts them,
so the key is invariant under permutation of the elements (as in
`f(x=[3,1,2])` versus `f(x=[1,2,3])`); and (3) a collection with a pair of
incomparable elements is left in its original order — normalization is
total and never raises. -/
theorem normalize_args_key_invariance :
    (∀ (h : String → String) (pfx : String) (kw1 kw2 : List (String × PVal)),
      kw1.Perm kw2 → (kw1.map Prod.fst).Nodup →
      generateKey h pfx [] (normalizeKwargs kw1)
        = generateKey h pfx [] (normalizeKwargs kw2))
    ∧ (∀ (xs ys : List PVal), xs.Perm ys → allComparable xs = true →
        normalizeValue (.list xs) = normalizeValue (.list ys)
        ∧ normalizeValue (.tup xs) = normalizeValue (.tup ys)
        ∧ normalizeValue (.set xs) = normalizeValue (.set ys)
        ∧ ∀ (h : String → String) (pfx name : String),
            generateKey h pfx [] (normalizeKwargs [(name, .list xs)])
              = generateKey h pfx [] (normalizeKwargs [(name, .list ys)]))
    ∧ (∀ xs : List PVal, allComparable xs = false →
        normalizeValue (.list xs) = .list xs
        ∧ normalizeValue (.tup xs) = .tup xs
        ∧ normalizeValue (.set xs) = .list xs) := by
  refine ⟨?_, ?_, ?_⟩
  · intro h pfx kw1 kw2 hperm hnd
    have : normalizeKwargs kw1 = normalizeKwargs kw2 := by
      rw [normalizeKwargs, normalizeKwargs, normalizeEntries_eq_map,
        normalizeEntries_eq_map]
      refine sortEntriesByKey_canonical
        (hperm.map (fun kv => (kv.1, normalizeValue kv.2))) ?_
      rw [List.map_map]
      exact hnd
    rw [this]
  · intro xs ys hperm hcomp
    have hcomp2 : allComparable ys = true := (allComparable_perm hperm) ▸ hcomp
    have hsort : pySort xs = pySort ys := pySort_canonical hperm
    have hl : normalizeValue (.list xs) = normalizeValue (.list ys) := by
      rw [normalizeValue, normalizeValue, if_pos hcomp, if_pos hcomp2, hsort]
    refine ⟨hl, ?_, ?_, ?_⟩
    · rw [normalizeValue, normalizeValue, if_pos hcomp, if_pos hcomp2, hsort]
    · rw [normalizeValue, normalizeValue, if_pos hcomp, if_pos hcomp2, hsort]
    · intro h pfx name
      rw [normalizeKwargs, normalizeKwargs, normalizeEntries, normalizeEntries,
        normalizeEntries, normalizeEntries, hl]
  · intro xs hc
    exact ⟨by rw [normalizeValue, if_neg (by rw [hc]; exact Bool.false_ne_true)],
      by rw [normalizeValue, if_neg (by rw [hc]; exact Bool.false_ne_true)],
      by rw [normalizeValue, if_neg (by rw [hc]; exact Bool.false_ne_true)]⟩

/-- C8 witness: swapping keyword order (`a=1, b=2` versus `b=2, a=1`)
yields the same key; `x=[3,1,2]` and `x=[1,2,3]` yield the same key; the
heterogeneous list `[1, "a"]` is kept in original order without error. -/
theorem normalize_args_key_invariance_witness :
    generateKey (fun s => s) "p" []
        (normalizeKwargs [("a", .int 1), ("b", .int 2)])
      = generateKey (fun s => s) "p" []
        (normalizeKwargs [("b", .int 2), ("a", .int 1)])
    ∧ generateKey (fun s => s) "p" []
        (normalizeKwargs [("x", .list [.int 3, .int 1, .int 2])])
      = generateKey (fun s => s) "p" []
        (normalizeKwargs [("x", .list [.int 1, .int 2, .int 3])])
    ∧ normalizeValue (.list [.int 1, .str "a"]) = .list [.int 1, .str "a"] :=
  ⟨normalize_args_key_invariance.1 (fun s => s) "p"
      [("a", .int 1), ("b", .int 2)] [("b", .int 2), ("a", .int 1)]
      (by decide) (by decide),
    (normalize_args_key_invariance.2.1 [.int 3, .int 1, .int 2]
      [.int 1, .int 2, .int 3] (by decide) (by decide)).2.2.2
      (fun s => s) "p" "x",
    (normalize_args_key_invariance.2.2 [.int 1, .str "a"] (by decide)).1⟩
